import Mathlib

/-!
# Fixed-block pool allocator

A shallow embedding of `src/src/allocator.c` (with the constants of
`src/include/allocator.h`) and of the test driver `src/tests/allocator_test.c`.

* Pointers are natural numbers, `NULL` is `0`.
* Memory is a flat byte-addressed map `Nat → Nat`; a byte is the stored value
  modulo 256.  A `Block*` occupies `PTR_SIZE = 8` bytes (LP64), stored least
  significant byte first, so the `next` field of the block at address `a`
  lives in the bytes `a .. a + 7`.
* The two static arrays are placed by a `Layout` (their start addresses); the
  two static list heads `free_small` and `free_large` are fields of `State`.
-/

namespace Allocator

/-! ## Constants of `include/allocator.h` -/

/-- Size of a small block in bytes. -/
@[simp] def SMALL_BLOCK_SIZE : Nat := 15

/-- Size of a large block in bytes. -/
@[simp] def LARGE_BLOCK_SIZE : Nat := 180

/-- Number of blocks in the small pool. -/
@[simp] def SMALL_POOL_SIZE : Nat := 128

/-- Number of blocks in the large pool. -/
@[simp] def LARGE_POOL_SIZE : Nat := 32

/-- Width in bytes of a `Block*` (the only field of `struct Block`), LP64. -/
@[simp] def PTR_SIZE : Nat := 8

/-! ## Memory -/

/-- Byte-addressed memory: address to stored value (a byte is the value mod 256). -/
abbrev Mem := Nat → Nat

/-- Store of the pointer value `v` into the 8 bytes starting at address `a`. -/
def storePtr (m : Mem) (a v : Nat) : Mem :=
  fun x => if a ≤ x ∧ x < a + PTR_SIZE then (v / 256 ^ (x - a)) % 256 else m x

/-- Load of a pointer value from the 8 bytes starting at address `a`. -/
def loadPtr (m : Mem) (a : Nat) : Nat :=
  m a % 256
    + (m (a + 1) % 256) * 256
    + (m (a + 2) % 256) * 65536
    + (m (a + 3) % 256) * 16777216
    + (m (a + 4) % 256) * 4294967296
    + (m (a + 5) % 256) * 1099511627776
    + (m (a + 6) % 256) * 281474976710656
    + (m (a + 7) % 256) * 72057594037927936

/-- The libc call `memset(p, c, n)` as the test driver uses it: `n` bytes from `p`
are set to the byte `c`. -/
def memset (m : Mem) (p c n : Nat) : Mem :=
  fun x => if p ≤ x ∧ x < p + n then c % 256 else m x

/-! ## Allocator state -/

/-- Start addresses of the static arrays `small_pool` and `large_pool`. -/
structure Layout where
  small_pool : Nat
  large_pool : Nat

/-- A layout the C implementation can produce: both arrays are objects (non-null
address), they fit below `2 ^ 64`, and they do not overlap. -/
def Layout.wf (L : Layout) : Prop :=
  0 < L.small_pool ∧ 0 < L.large_pool ∧
  L.small_pool + SMALL_BLOCK_SIZE * SMALL_POOL_SIZE < 2 ^ 64 ∧
  L.large_pool + LARGE_BLOCK_SIZE * LARGE_POOL_SIZE < 2 ^ 64 ∧
  (L.small_pool + SMALL_BLOCK_SIZE * SMALL_POOL_SIZE ≤ L.large_pool ∨
    L.large_pool + LARGE_BLOCK_SIZE * LARGE_POOL_SIZE ≤ L.small_pool)

instance (L : Layout) : Decidable L.wf := by
  unfold Layout.wf; infer_instance

/-- The mutable state: the two static list heads and memory. -/
structure State where
  free_small : Nat
  free_large : Nat
  mem : Mem

/-- State of a process that has not called the allocator yet: both heads are
`NULL` and the static arrays are zero-initialised. -/
def fresh : State := { free_small := 0, free_large := 0, mem := fun _ => 0 }

/-! ## `init_pools`, `malloc`, `free` -/

/-- Body of the first loop of `init_pools` for index `i`. -/
def init_small_step (L : Layout) (s : State) (i : Nat) : State :=
  let blk := L.small_pool + i * SMALL_BLOCK_SIZE
  { s with mem := storePtr s.mem blk s.free_small, free_small := blk }

/-- Body of the second loop of `init_pools` for index `i`. -/
def init_large_step (L : Layout) (s : State) (i : Nat) : State :=
  let blk := L.large_pool + i * LARGE_BLOCK_SIZE
  { s with mem := storePtr s.mem blk s.free_large, free_large := blk }

/-- The function `init_pools`: each pool whose head is `NULL` is linked anew. -/
def init_pools (L : Layout) (s : State) : State :=
  let s1 := if s.free_small = 0 then
      (List.range SMALL_POOL_SIZE).foldl (init_small_step L) s
    else s
  if s1.free_large = 0 then
    (List.range LARGE_POOL_SIZE).foldl (init_large_step L) s1
  else s1

/-- The function `malloc(size)`: returned pointer (`0` for `NULL`) and new state. -/
def malloc (L : Layout) (size : Nat) (s : State) : Nat × State :=
  let s := init_pools L s
  if size ≤ SMALL_BLOCK_SIZE then
    if s.free_small = 0 then (0, s)
    else (s.free_small, { s with free_small := loadPtr s.mem s.free_small })
  else if size ≤ LARGE_BLOCK_SIZE then
    if s.free_large = 0 then (0, s)
    else (s.free_large, { s with free_large := loadPtr s.mem s.free_large })
  else (0, s)

/-- The function `free(ptr)`. -/
def free (L : Layout) (ptr : Nat) (s : State) : State :=
  if ptr = 0 then s
  else if L.small_pool ≤ ptr ∧ ptr < L.small_pool + SMALL_BLOCK_SIZE * SMALL_POOL_SIZE then
    { s with mem := storePtr s.mem ptr s.free_small, free_small := ptr }
  else if L.large_pool ≤ ptr ∧ ptr < L.large_pool + LARGE_BLOCK_SIZE * LARGE_POOL_SIZE then
    { s with mem := storePtr s.mem ptr s.free_large, free_large := ptr }
  else s

/-! ## Call sequences -/

/-- Consecutive `malloc` calls with the given sizes: returned pointers in call
order, and the final state. -/
def mallocs (L : Layout) : List Nat → State → List Nat × State
  | [], s => ([], s)
  | size :: rest, s =>
    let r := malloc L size s
    let rs := mallocs L rest r.2
    (r.1 :: rs.1, rs.2)

/-- Consecutive `free` calls on the given pointers, in list order. -/
def frees (L : Layout) : List Nat → State → State
  | [], s => s
  | p :: ps, s => frees L ps (free L p s)

/-- A call of the public interface. -/
inductive Op where
  | malloc (size : Nat)
  | free (ptr : Nat)

/-- One call on a state paired with the list of live handles (returned by
`malloc` and not yet passed to `free`).  A `free` of a pointer that is neither
`NULL` nor live is outside the contract and yields `none`. -/
def step (L : Layout) (c : State × List Nat) : Op → Option (State × List Nat)
  | .malloc size =>
    let r := malloc L size c.1
    some (r.2, if r.1 = 0 then c.2 else r.1 :: c.2)
  | .free p =>
    if p = 0 then some (free L p c.1, c.2)
    else if p ∈ c.2 then some (free L p c.1, c.2.erase p)
    else none

/-- A sequence of calls, each within the contract of `step`. -/
def runOps (L : Layout) : List Op → State × List Nat → Option (State × List Nat)
  | [], c => some c
  | op :: rest, c => (step L c op).bind (runOps L rest)

/-- The address is the start of one of the 128 blocks of the small arena. -/
def isSmallBlock (L : Layout) (p : Nat) : Prop :=
  ∃ j, j < SMALL_POOL_SIZE ∧ p = L.small_pool + SMALL_BLOCK_SIZE * j

/-- The address is the start of one of the 32 blocks of the large arena. -/
def isLargeBlock (L : Layout) (p : Nat) : Prop :=
  ∃ j, j < LARGE_POOL_SIZE ∧ p = L.large_pool + LARGE_BLOCK_SIZE * j

/-- One iteration of a linking loop of `init_pools` on the pair (head, memory),
for an arena at `base` with blocks of `bsize` bytes. -/
def linkStep (base bsize : Nat) (hm : Nat × Mem) (i : Nat) : Nat × Mem :=
  (base + i * bsize, storePtr hm.2 (base + i * bsize) hm.1)

/-- Head of a freshly linked arena once only its first `n` blocks remain in the
list; also the `next` link that the linking loop gives to block `n`. -/
def nextOf (base bsize n : Nat) : Nat :=
  if n = 0 then 0 else base + (n - 1) * bsize

/-- The `next` fields of blocks `0 .. n-1` of the arena at `base` hold the links
written by the linking loop of `init_pools`. -/
def Chain (base bsize : Nat) (m : Mem) (n : Nat) : Prop :=
  ∀ i, i < n → loadPtr m (base + i * bsize) = nextOf base bsize i

/-- The address lies in the half-open range of the small arena. -/
def inSmall (L : Layout) (x : Nat) : Prop :=
  L.small_pool ≤ x ∧ x < L.small_pool + SMALL_BLOCK_SIZE * SMALL_POOL_SIZE

/-- The address lies in the half-open range of the large arena. -/
def inLarge (L : Layout) (x : Nat) : Prop :=
  L.large_pool ≤ x ∧ x < L.large_pool + LARGE_BLOCK_SIZE * LARGE_POOL_SIZE

/-- The address reached from `h` after following `n` `next` links. -/
def nthNext (m : Mem) (h : Nat) : Nat → Nat
  | 0 => h
  | n + 1 => loadPtr m (nthNext m h n)

/-- The loop of `test_small_blocks` over the indices still to do: the result
of the test so far, the entries stored into `small_blocks`, and the state. -/
def test_small_loop (L : Layout) : List Nat → State → Bool × List Nat × State
  | [], s => (true, [], s)
  | i :: is, s =>
    let r := malloc L SMALL_BLOCK_SIZE s
    if r.1 = 0 then (false, [r.1], r.2)
    else
      let rest := test_small_loop L is
        { r.2 with mem := memset r.2.mem r.1 i SMALL_BLOCK_SIZE }
      (rest.1, r.1 :: rest.2.1, rest.2.2)

/-- The function `test_small_blocks`. -/
def test_small_blocks (L : Layout) (s : State) : Bool × List Nat × State :=
  test_small_loop L (List.range SMALL_POOL_SIZE) s

/-- The loop of `test_large_blocks` over the indices still to do. -/
def test_large_loop (L : Layout) : List Nat → State → Bool × List Nat × State
  | [], s => (true, [], s)
  | i :: is, s =>
    let r := malloc L LARGE_BLOCK_SIZE s
    if r.1 = 0 then (false, [r.1], r.2)
    else
      let rest := test_large_loop L is
        { r.2 with mem := memset r.2.mem r.1 (i + 100) LARGE_BLOCK_SIZE }
      (rest.1, r.1 :: rest.2.1, rest.2.2)

/-- The function `test_large_blocks`. -/
def test_large_blocks (L : Layout) (s : State) : Bool × List Nat × State :=
  test_large_loop L (List.range LARGE_POOL_SIZE) s

/-- The function `test_data_integrity` on the two global arrays (an entry never
assigned is `NULL`) and memory: `true` when every byte holds its pattern. -/
def test_data_integrity (small_blocks large_blocks : List Nat) (m : Mem) : Bool :=
  (List.range SMALL_POOL_SIZE).all (fun i =>
    (List.range SMALL_BLOCK_SIZE).all (fun j =>
      decide (m (small_blocks.getD i 0 + j) % 256 = i)))
  && (List.range LARGE_POOL_SIZE).all (fun i =>
    (List.range LARGE_BLOCK_SIZE).all (fun j =>
      decide (m (large_blocks.getD i 0 + j) % 256 = i + 100)))

/-- The list `l` is the finite, `NULL`-terminated chain of blocks met by
following `next` links in `m` from the head `h`. -/
def IsList (m : Mem) : Nat → List Nat → Prop
  | h, [] => h = 0
  | h, b :: t => h = b ∧ b ≠ 0 ∧ IsList m (loadPtr m b) t

instance (L : Layout) (x : Nat) : Decidable (inLarge L x) := by
  unfold inLarge; infer_instance

instance (L : Layout) (x : Nat) : Decidable (inSmall L x) := by
  unfold inSmall; infer_instance

/-- A state with both heads non-null whose small head, the address 64, lies in
neither arena of `demoLayout`; memory is all zero. -/
def strayHeadState : State := { free_small := 64, free_large := 8192, mem := fun _ => 0 }

/-- A layout used to instantiate the statements: `small_pool` at `0x1000`,
`large_pool` at `0x2000`. -/
def demoLayout : Layout := { small_pool := 4096, large_pool := 8192 }

/-! ## Memory lemmas -/

theorem storePtr_outside (m : Mem) (a v x : Nat) (h : x < a ∨ a + 8 ≤ x) :
    storePtr m a v x = m x := by
  unfold storePtr
  have hn : ¬ (a ≤ x ∧ x < a + PTR_SIZE) := by simp only [PTR_SIZE]; omega
  rw [if_neg hn]

theorem storePtr_inside (m : Mem) (a v k : Nat) (h : k < 8) :
    storePtr m a v (a + k) = (v / 256 ^ k) % 256 := by
  unfold storePtr
  have hp : a ≤ a + k ∧ a + k < a + PTR_SIZE := by simp only [PTR_SIZE]; omega
  rw [if_pos hp, Nat.add_sub_cancel_left]

theorem loadPtr_congr (m m' : Mem) (a : Nat)
    (h : ∀ k, k < 8 → m' (a + k) = m (a + k)) : loadPtr m' a = loadPtr m a := by
  unfold loadPtr
  have h0 := h 0 (by omega)
  simp only [Nat.add_zero] at h0
  rw [h0, h 1 (by omega), h 2 (by omega), h 3 (by omega), h 4 (by omega),
    h 5 (by omega), h 6 (by omega), h 7 (by omega)]

theorem loadPtr_of_bytes (m : Mem) (a v : Nat) (hv : v < 2 ^ 64)
    (h : ∀ k, k < 8 → m (a + k) = (v / 256 ^ k) % 256) : loadPtr m a = v := by
  unfold loadPtr
  have h0 := h 0 (by omega)
  simp only [Nat.add_zero] at h0
  rw [h0, h 1 (by omega), h 2 (by omega), h 3 (by omega), h 4 (by omega),
    h 5 (by omega), h 6 (by omega), h 7 (by omega)]
  norm_num
  omega

theorem loadPtr_storePtr_same (m : Mem) (a v : Nat) (hv : v < 2 ^ 64) :
    loadPtr (storePtr m a v) a = v :=
  loadPtr_of_bytes _ a v hv (fun k hk => storePtr_inside m a v k hk)

theorem loadPtr_storePtr_disj (m : Mem) (a v b : Nat) (h : a + 8 ≤ b ∨ b + 8 ≤ a) :
    loadPtr (storePtr m a v) b = loadPtr m b :=
  loadPtr_congr _ _ b (fun k hk => storePtr_outside m a v (b + k) (by omega))

/-! ## The linking loops of `init_pools` -/

theorem foldl_init_small_eq (L : Layout) (l : List Nat) (s : State) :
    l.foldl (init_small_step L) s =
      { free_small := (l.foldl (linkStep L.small_pool 15) (s.free_small, s.mem)).1,
        free_large := s.free_large,
        mem := (l.foldl (linkStep L.small_pool 15) (s.free_small, s.mem)).2 } := by
  induction l generalizing s with
  | nil => rfl
  | cons i t ih =>
    simp only [List.foldl_cons]
    rw [ih]
    rfl

theorem foldl_init_large_eq (L : Layout) (l : List Nat) (s : State) :
    l.foldl (init_large_step L) s =
      { free_small := s.free_small,
        free_large := (l.foldl (linkStep L.large_pool 180) (s.free_large, s.mem)).1,
        mem := (l.foldl (linkStep L.large_pool 180) (s.free_large, s.mem)).2 } := by
  induction l generalizing s with
  | nil => rfl
  | cons i t ih =>
    simp only [List.foldl_cons]
    rw [ih]
    rfl

theorem nextOf_lt (base bsize n N : Nat) (hn : n ≤ N) (hb : base + bsize * N < 2 ^ 64) :
    nextOf base bsize n < 2 ^ 64 := by
  unfold nextOf
  split
  · exact Nat.pos_pow_of_pos 64 (by decide)
  · have h1 : (n - 1) * bsize ≤ bsize * N := by
      rw [Nat.mul_comm]
      exact Nat.mul_le_mul_left bsize (by omega)
    omega

/-- Effect of the first `n` iterations of a linking loop that starts from head
`NULL`: the head, the bytes of every written `next` field, and the frame. -/
theorem linkLoop_spec (base bsize : Nat) (h8 : 8 ≤ bsize) (m0 : Mem) (n : Nat) :
    ((List.range n).foldl (linkStep base bsize) (0, m0)).1 = nextOf base bsize n ∧
    (∀ i, i < n → ∀ k, k < 8 →
      ((List.range n).foldl (linkStep base bsize) (0, m0)).2 (base + i * bsize + k)
        = (nextOf base bsize i / 256 ^ k) % 256) ∧
    (∀ x, (∀ i, i < n → x < base + i * bsize ∨ base + i * bsize + 8 ≤ x) →
      ((List.range n).foldl (linkStep base bsize) (0, m0)).2 x = m0 x) := by
  induction n with
  | zero =>
    refine ⟨rfl, ?_, ?_⟩
    · intro i hi; omega
    · intro x _; rfl
  | succ n ih =>
    obtain ⟨ih1, ih2, ih3⟩ := ih
    rw [List.range_succ, List.foldl_append]
    simp only [List.foldl_cons, List.foldl_nil]
    generalize (List.range n).foldl (linkStep base bsize) (0, m0) = r at ih1 ih2 ih3
    obtain ⟨h, m⟩ := r
    simp only at ih1 ih2 ih3
    simp only [linkStep]
    refine ⟨?_, ?_, ?_⟩
    · simp [nextOf]
    · intro i hi k hk
      by_cases hin : i = n
      · subst hin
        rw [storePtr_inside m _ _ k hk, ih1]
      · have hlt : i < n := by omega
        have hmul : i * bsize + bsize ≤ n * bsize := by
          have := Nat.mul_le_mul_right bsize (show i + 1 ≤ n by omega)
          rw [Nat.succ_mul] at this
          exact this
        rw [storePtr_outside m _ _ _ (by omega)]
        exact ih2 i hlt k hk
    · intro x hx
      rw [storePtr_outside m _ _ _ (hx n (by omega))]
      exact ih3 x (fun i hi => hx i (by omega))

theorem linkLoop_frame (base bsize : Nat) (h8 : 8 ≤ bsize) (m0 : Mem) (n x : Nat)
    (hx : x < base ∨ base + bsize * n ≤ x) :
    ((List.range n).foldl (linkStep base bsize) (0, m0)).2 x = m0 x := by
  refine (linkLoop_spec base bsize h8 m0 n).2.2 x ?_
  intro i hi
  have hmul : i * bsize + bsize ≤ bsize * n := by
    have := Nat.mul_le_mul_right bsize (show i + 1 ≤ n by omega)
    rw [Nat.succ_mul, Nat.mul_comm n bsize] at this
    exact this
  omega

theorem linkLoop_chain (base bsize : Nat) (h8 : 8 ≤ bsize) (m0 : Mem) (n : Nat)
    (hb : base + bsize * n < 2 ^ 64) :
    Chain base bsize ((List.range n).foldl (linkStep base bsize) (0, m0)).2 n := by
  intro i hi
  exact loadPtr_of_bytes _ _ _ (nextOf_lt base bsize i n (by omega) hb)
    (fun k hk => (linkLoop_spec base bsize h8 m0 n).2.1 i hi k hk)

theorem Chain_congr (base bsize : Nat) (m m' : Mem) (n : Nat) (h : Chain base bsize m n)
    (hm : ∀ i, i < n → ∀ k, k < 8 → m' (base + i * bsize + k) = m (base + i * bsize + k)) :
    Chain base bsize m' n := by
  intro i hi
  rw [loadPtr_congr m m' _ (hm i hi)]
  exact h i hi

theorem Chain_mono (base bsize : Nat) (m : Mem) (n k : Nat) (h : Chain base bsize m n)
    (hk : k ≤ n) : Chain base bsize m k :=
  fun i hi => h i (by omega)

/-- What `init_pools` does to a state: the heads, the links of a pool that is
linked anew, the bytes it writes there, and the bytes it leaves alone. -/
theorem init_pools_spec (L : Layout) (hL : L.wf) (s : State) :
    (init_pools L s).free_small
      = (if s.free_small = 0 then L.small_pool + 1905 else s.free_small) ∧
    (init_pools L s).free_large
      = (if s.free_large = 0 then L.large_pool + 5580 else s.free_large) ∧
    (s.free_small = 0 → Chain L.small_pool 15 (init_pools L s).mem 128) ∧
    (s.free_large = 0 → Chain L.large_pool 180 (init_pools L s).mem 32) ∧
    (s.free_small = 0 → ∀ i, i < 128 → ∀ k, k < 8 →
      (init_pools L s).mem (L.small_pool + i * 15 + k)
        = (nextOf L.small_pool 15 i / 256 ^ k) % 256) ∧
    (s.free_small ≠ 0 → ∀ x, inSmall L x → (init_pools L s).mem x = s.mem x) ∧
    (s.free_large ≠ 0 → ∀ x, inLarge L x → (init_pools L s).mem x = s.mem x) ∧
    (∀ x, ¬ inSmall L x → ¬ inLarge L x → (init_pools L s).mem x = s.mem x) := by
  obtain ⟨hs0, hl0, hs64, hl64, hdisj⟩ := hL
  simp only [SMALL_BLOCK_SIZE, SMALL_POOL_SIZE, LARGE_BLOCK_SIZE, LARGE_POOL_SIZE] at hs64 hl64 hdisj
  unfold init_pools
  simp only [SMALL_POOL_SIZE, LARGE_POOL_SIZE, inSmall, inLarge, SMALL_BLOCK_SIZE,
    LARGE_BLOCK_SIZE]
  by_cases hs : s.free_small = 0 <;> by_cases hl : s.free_large = 0
  · -- both pools are linked
    simp only [hs, hl, if_true, foldl_init_small_eq, foldl_init_large_eq]
    have hS := linkLoop_spec L.small_pool 15 (by omega) s.mem 128
    have hSc := linkLoop_chain L.small_pool 15 (by omega) s.mem 128 (by omega)
    have hSf := linkLoop_frame L.small_pool 15 (by omega) s.mem 128
    generalize (List.range 128).foldl (linkStep L.small_pool 15) (0, s.mem) = r at hS hSc hSf
    obtain ⟨h1, m1⟩ := r
    simp only at hS hSc hSf ⊢
    have hG := linkLoop_spec L.large_pool 180 (by omega) m1 32
    have hGc := linkLoop_chain L.large_pool 180 (by omega) m1 32 (by omega)
    have hGf := linkLoop_frame L.large_pool 180 (by omega) m1 32
    generalize (List.range 32).foldl (linkStep L.large_pool 180) (0, m1) = r2 at hG hGc hGf
    obtain ⟨h2, m2⟩ := r2
    simp only at hG hGc hGf ⊢
    refine ⟨?_, ?_, ?_, ?_, ?_, ?_, ?_, ?_⟩
    · rw [hS.1]; simp [nextOf]
    · rw [hG.1]; simp [nextOf]
    · intro _
      exact Chain_congr _ _ m1 m2 128 hSc (fun i hi k hk => hGf _ (by omega))
    · intro _; exact hGc
    · intro _ i hi k hk
      rw [hGf _ (by omega)]
      exact hS.2.1 i hi k hk
    · intro h; exact absurd rfl h
    · intro h; exact absurd rfl h
    · intro x hx1 hx2
      rw [hGf x (by omega), hSf x (by omega)]
  · -- only the small pool is linked
    simp only [hs, hl, if_true, if_false, foldl_init_small_eq]
    have hS := linkLoop_spec L.small_pool 15 (by omega) s.mem 128
    have hSc := linkLoop_chain L.small_pool 15 (by omega) s.mem 128 (by omega)
    have hSf := linkLoop_frame L.small_pool 15 (by omega) s.mem 128
    generalize (List.range 128).foldl (linkStep L.small_pool 15) (0, s.mem) = r at hS hSc hSf
    obtain ⟨h1, m1⟩ := r
    simp only at hS hSc hSf ⊢
    refine ⟨?_, ?_, ?_, ?_, ?_, ?_, ?_, ?_⟩
    · rw [hS.1]; simp [nextOf]
    · trivial
    · intro _; exact hSc
    · intro h; exact h.elim
    · intro _ i hi k hk
      exact hS.2.1 i hi k hk
    · intro h; exact absurd rfl h
    · intro _ x hx
      exact hSf x (by omega)
    · intro x hx1 hx2
      exact hSf x (by omega)
  · -- only the large pool is linked
    simp only [hs, hl, if_true, if_false, foldl_init_large_eq]
    have hG := linkLoop_spec L.large_pool 180 (by omega) s.mem 32
    have hGc := linkLoop_chain L.large_pool 180 (by omega) s.mem 32 (by omega)
    have hGf := linkLoop_frame L.large_pool 180 (by omega) s.mem 32
    generalize (List.range 32).foldl (linkStep L.large_pool 180) (0, s.mem) = r2 at hG hGc hGf
    obtain ⟨h2, m2⟩ := r2
    simp only at hG hGc hGf ⊢
    refine ⟨?_, ?_, ?_, ?_, ?_, ?_, ?_, ?_⟩
    · trivial
    · rw [hG.1]; simp [nextOf]
    · intro h; exact h.elim
    · intro _; exact hGc
    · intro h; exact h.elim
    · intro _ x hx
      exact hGf x (by omega)
    · intro h; exact absurd rfl h
    · intro x hx1 hx2
      exact hGf x (by omega)
  · -- nothing to do
    simp only [hs, hl, if_false]
    refine ⟨trivial, trivial, ?_, ?_, ?_, ?_, ?_, ?_⟩
    · intro h; exact h.elim
    · intro h; exact h.elim
    · intro h; exact h.elim
    · intro _ x _; trivial
    · intro _ x _; trivial
    · intro x _ _; trivial

theorem init_pools_id (L : Layout) (s : State) (hs : s.free_small ≠ 0)
    (hl : s.free_large ≠ 0) : init_pools L s = s := by
  unfold init_pools
  simp [hs, hl]

/-! ## Popping a linked pool -/

theorem nextOf_succ (base bsize n : Nat) : nextOf base bsize (n + 1) = base + n * bsize := by
  simp [nextOf]

theorem nextOf_zero (base bsize : Nat) : nextOf base bsize 0 = 0 := by
  simp [nextOf]

theorem init_pools_heads_ne (L : Layout) (hL : L.wf) (s : State) :
    (init_pools L s).free_small ≠ 0 ∧ (init_pools L s).free_large ≠ 0 := by
  obtain ⟨h1, h2, _⟩ := init_pools_spec L hL s
  obtain ⟨hs0, hl0, _⟩ := hL
  rw [h1, h2]
  constructor
  · split <;> omega
  · split <;> omega

theorem malloc_init_pools (L : Layout) (hL : L.wf) (size : Nat) (s : State) :
    malloc L size (init_pools L s) = malloc L size s := by
  obtain ⟨h1, h2⟩ := init_pools_heads_ne L hL s
  unfold malloc
  rw [init_pools_id L _ h1 h2]

theorem malloc_small_pop (L : Layout) (hL : L.wf) (s : State) (n size : Nat)
    (hsz : size ≤ 15) (hh : s.free_small = nextOf L.small_pool 15 (n + 1))
    (hc : Chain L.small_pool 15 s.mem (n + 1)) (hl : s.free_large ≠ 0) :
    malloc L size s
      = (L.small_pool + n * 15, { s with free_small := nextOf L.small_pool 15 n }) := by
  obtain ⟨hs0, _⟩ := hL
  rw [nextOf_succ] at hh
  have hne : s.free_small ≠ 0 := by omega
  have hld : loadPtr s.mem s.free_small = nextOf L.small_pool 15 n := by
    rw [hh]; exact hc n (by omega)
  unfold malloc
  rw [init_pools_id L s hne hl]
  simp only [SMALL_BLOCK_SIZE, hsz, if_true]
  rw [if_neg hne, hld, hh]

theorem malloc_large_pop (L : Layout) (hL : L.wf) (s : State) (n size : Nat)
    (hsz1 : 15 < size) (hsz : size ≤ 180)
    (hh : s.free_large = nextOf L.large_pool 180 (n + 1))
    (hc : Chain L.large_pool 180 s.mem (n + 1)) (hl : s.free_small ≠ 0) :
    malloc L size s
      = (L.large_pool + n * 180, { s with free_large := nextOf L.large_pool 180 n }) := by
  obtain ⟨_, hl0, _⟩ := hL
  rw [nextOf_succ] at hh
  have hne : s.free_large ≠ 0 := by omega
  have hld : loadPtr s.mem s.free_large = nextOf L.large_pool 180 n := by
    rw [hh]; exact hc n (by omega)
  have hnot : ¬ size ≤ 15 := by omega
  unfold malloc
  rw [init_pools_id L s hl hne]
  simp only [SMALL_BLOCK_SIZE, LARGE_BLOCK_SIZE, hnot, hsz, if_true, if_false]
  rw [if_neg hne, hld, hh]

theorem mallocs_append (L : Layout) (xs ys : List Nat) (s : State) :
    mallocs L (xs ++ ys) s
      = ((mallocs L xs s).1 ++ (mallocs L ys (mallocs L xs s).2).1,
          (mallocs L ys (mallocs L xs s).2).2) := by
  induction xs generalizing s with
  | nil => rfl
  | cons x t ih =>
    rw [List.cons_append]
    simp only [mallocs]
    rw [ih]
    rfl

theorem mallocs_length (L : Layout) (xs : List Nat) (s : State) :
    (mallocs L xs s).1.length = xs.length := by
  induction xs generalizing s with
  | nil => rfl
  | cons x t ih => simp [mallocs, ih]

/-- Consecutive small requests pop a linked small pool in descending address
order and touch nothing but the small head. -/
theorem mallocs_small_run (L : Layout) (hL : L.wf) (sizes : List Nat) (s : State) (n : Nat)
    (hlen : sizes.length ≤ n) (hsz : ∀ z ∈ sizes, z ≤ 15)
    (hh : s.free_small = nextOf L.small_pool 15 n)
    (hc : Chain L.small_pool 15 s.mem n) (hl : s.free_large ≠ 0) :
    mallocs L sizes s
      = ((List.range sizes.length).map (fun j => L.small_pool + (n - 1 - j) * 15),
          { s with free_small := nextOf L.small_pool 15 (n - sizes.length) }) := by
  induction sizes generalizing s n with
  | nil =>
    simp only [mallocs, List.length_nil, List.range_zero, List.map_nil, Nat.sub_zero]
    rw [← hh]
  | cons z t ih =>
    obtain ⟨n, rfl⟩ : ∃ k, n = k + 1 := ⟨n - 1, by simp at hlen; omega⟩
    have hz : z ≤ 15 := hsz z (List.mem_cons_self _ _)
    simp only [mallocs]
    rw [malloc_small_pop L hL s n z hz hh hc hl]
    simp only
    rw [ih { s with free_small := nextOf L.small_pool 15 n } n (by simp at hlen; omega)
      (fun y hy => hsz y (List.mem_cons_of_mem _ hy)) rfl
      (Chain_mono _ _ _ _ _ hc (by omega)) hl]
    simp only [List.length_cons, List.range_succ_eq_map, List.map_cons, List.map_map,
      Nat.add_sub_cancel, Nat.sub_zero, Nat.add_sub_add_right]
    refine Prod.ext ?_ rfl
    simp only
    congr 1
    apply List.map_congr_left
    intro j _
    simp only [Function.comp]
    congr 2
    omega

/-- Consecutive large requests pop a linked large pool in descending address
order and touch nothing but the large head. -/
theorem mallocs_large_run (L : Layout) (hL : L.wf) (sizes : List Nat) (s : State) (n : Nat)
    (hlen : sizes.length ≤ n) (hsz : ∀ z ∈ sizes, 15 < z ∧ z ≤ 180)
    (hh : s.free_large = nextOf L.large_pool 180 n)
    (hc : Chain L.large_pool 180 s.mem n) (hl : s.free_small ≠ 0) :
    mallocs L sizes s
      = ((List.range sizes.length).map (fun j => L.large_pool + (n - 1 - j) * 180),
          { s with free_large := nextOf L.large_pool 180 (n - sizes.length) }) := by
  induction sizes generalizing s n with
  | nil =>
    simp only [mallocs, List.length_nil, List.range_zero, List.map_nil, Nat.sub_zero]
    rw [← hh]
  | cons z t ih =>
    obtain ⟨n, rfl⟩ : ∃ k, n = k + 1 := ⟨n - 1, by simp at hlen; omega⟩
    have hz := hsz z (List.mem_cons_self _ _)
    simp only [mallocs]
    rw [malloc_large_pop L hL s n z hz.1 hz.2 hh hc hl]
    simp only
    rw [ih { s with free_large := nextOf L.large_pool 180 n } n (by simp at hlen; omega)
      (fun y hy => hsz y (List.mem_cons_of_mem _ hy)) rfl
      (Chain_mono _ _ _ _ _ hc (by omega)) hl]
    simp only [List.length_cons, List.range_succ_eq_map, List.map_cons, List.map_map,
      Nat.add_sub_cancel, Nat.sub_zero, Nat.add_sub_add_right]
    refine Prod.ext ?_ rfl
    simp only
    congr 1
    apply List.map_congr_left
    intro j _
    simp only [Function.comp]
    congr 2
    omega

/-! ## Return value of `malloc` and the fresh allocator -/

theorem malloc_small_ret (L : Layout) (size : Nat) (s : State) (hsz : size ≤ 15) :
    (malloc L size s).1 = (init_pools L s).free_small := by
  unfold malloc
  simp only [SMALL_BLOCK_SIZE, hsz, if_true]
  split
  · rename_i h; simp [h]
  · rfl

theorem malloc_large_ret (L : Layout) (size : Nat) (s : State) (h1 : 15 < size)
    (h2 : size ≤ 180) : (malloc L size s).1 = (init_pools L s).free_large := by
  have hnot : ¬ size ≤ 15 := by omega
  unfold malloc
  simp only [SMALL_BLOCK_SIZE, LARGE_BLOCK_SIZE, hnot, h2, if_true, if_false]
  split
  · rename_i h; simp [h]
  · rfl

theorem init_fresh (L : Layout) (hL : L.wf) :
    (init_pools L fresh).free_small = nextOf L.small_pool 15 128 ∧
    (init_pools L fresh).free_large = nextOf L.large_pool 180 32 ∧
    Chain L.small_pool 15 (init_pools L fresh).mem 128 ∧
    Chain L.large_pool 180 (init_pools L fresh).mem 32 := by
  obtain ⟨h1, h2, h3, h4, _⟩ := init_pools_spec L hL fresh
  refine ⟨?_, ?_, h3 rfl, h4 rfl⟩
  · rw [h1]; simp [fresh, nextOf]
  · rw [h2]; simp [fresh, nextOf]

theorem mallocs_fresh_fst (L : Layout) (hL : L.wf) (sizes : List Nat) :
    (mallocs L sizes fresh).1 = (mallocs L sizes (init_pools L fresh)).1 := by
  cases sizes with
  | nil => rfl
  | cons z t => simp only [mallocs]; rw [malloc_init_pools L hL]

theorem mallocs_fresh_snd (L : Layout) (hL : L.wf) (sizes : List Nat) (h : sizes ≠ []) :
    (mallocs L sizes fresh).2 = (mallocs L sizes (init_pools L fresh)).2 := by
  cases sizes with
  | nil => exact absurd rfl h
  | cons z t => simp only [mallocs]; rw [malloc_init_pools L hL]

theorem small_run_fresh (L : Layout) (hL : L.wf) (sizes : List Nat)
    (hlen : sizes.length ≤ 128) (hsz : ∀ z ∈ sizes, z ≤ 15) :
    mallocs L sizes (init_pools L fresh)
      = ((List.range sizes.length).map (fun j => L.small_pool + (128 - 1 - j) * 15),
          { init_pools L fresh with
            free_small := nextOf L.small_pool 15 (128 - sizes.length) }) := by
  obtain ⟨h1, h2, h3, _⟩ := init_fresh L hL
  have hl : (init_pools L fresh).free_large ≠ 0 := (init_pools_heads_ne L hL fresh).2
  exact mallocs_small_run L hL sizes _ 128 hlen hsz h1 h3 hl

theorem large_run_fresh (L : Layout) (hL : L.wf) (sizes : List Nat)
    (hlen : sizes.length ≤ 32) (hsz : ∀ z ∈ sizes, 15 < z ∧ z ≤ 180) :
    mallocs L sizes (init_pools L fresh)
      = ((List.range sizes.length).map (fun j => L.large_pool + (32 - 1 - j) * 180),
          { init_pools L fresh with
            free_large := nextOf L.large_pool 180 (32 - sizes.length) }) := by
  obtain ⟨h1, h2, _, h4⟩ := init_fresh L hL
  have hl : (init_pools L fresh).free_small ≠ 0 := (init_pools_heads_ne L hL fresh).1
  exact mallocs_large_run L hL sizes _ 32 hlen hsz h2 h4 hl

theorem desc_nodup (base bsize N k : Nat) (hb : 0 < bsize) (hk : k ≤ N) :
    ((List.range k).map (fun j => base + (N - 1 - j) * bsize)).Nodup := by
  refine List.Nodup.map_on ?_ (List.nodup_range k)
  intro x hx y hy hxy
  rw [List.mem_range] at hx hy
  have h1 : (N - 1 - x) * bsize = (N - 1 - y) * bsize := by omega
  have h2 := Nat.eq_of_mul_eq_mul_right hb h1
  omega

/-! ## Runs of calls -/

theorem runOps_mallocs (L : Layout) (sizes : List Nat) (s : State) (live : List Nat) :
    runOps L (sizes.map Op.malloc) (s, live)
      = some ((mallocs L sizes s).2,
          ((mallocs L sizes s).1.filter (fun h => decide (h ≠ 0))).reverse ++ live) := by
  induction sizes generalizing s live with
  | nil => rfl
  | cons z t ih =>
    simp only [List.map_cons, runOps, step, Option.some_bind, mallocs]
    rw [ih]
    by_cases h0 : (malloc L z s).1 = 0
    · simp [h0]
    · simp [h0]

theorem runOps_append (L : Layout) (xs ys : List Op) (c : State × List Nat) :
    runOps L (xs ++ ys) c = (runOps L xs c).bind (runOps L ys) := by
  induction xs generalizing c with
  | nil => rfl
  | cons x t ih =>
    simp only [List.cons_append, runOps]
    cases step L c x with
    | none => rfl
    | some c1 => simp only [Option.some_bind]; exact ih c1

theorem malloc_large_free_small (L : Layout) (size : Nat) (s : State) (h : 15 < size) :
    (malloc L size s).2.free_small = (init_pools L s).free_small := by
  have hnot : ¬ size ≤ 15 := by omega
  unfold malloc
  simp only [SMALL_BLOCK_SIZE, hnot, if_false]
  split
  · split <;> rfl
  · rfl

/-- A small request on a state whose small head is `NULL` links the small pool
anew and pops its last block. -/
theorem malloc_small_relink (L : Layout) (hL : L.wf) (s : State) (size : Nat)
    (hsz : size ≤ 15) (h0 : s.free_small = 0) :
    malloc L size s
      = (L.small_pool + 1905, { init_pools L s with free_small := L.small_pool + 1890 }) := by
  obtain ⟨h1, _, h3, _⟩ := init_pools_spec L hL s
  rw [if_pos h0] at h1
  rw [← malloc_init_pools L hL,
    malloc_small_pop L hL (init_pools L s) 127 size hsz (by rw [h1]; simp [nextOf])
      (h3 h0) (init_pools_heads_ne L hL s).2]
  simp [nextOf]

theorem nthNext_self (m : Mem) (h : Nat) (hself : loadPtr m h = h) (n : Nat) :
    nthNext m h n = h := by
  induction n with
  | zero => rfl
  | succ n ih => simp only [nthNext, ih, hself]

theorem state_after_small_exhaustion (L : Layout) (hL : L.wf) :
    (mallocs L (List.replicate 128 15) fresh).1
        = (List.range 128).map (fun j => L.small_pool + (128 - 1 - j) * 15) ∧
    (mallocs L (List.replicate 128 15) fresh).2
        = { init_pools L fresh with free_small := 0 } := by
  have hsz : ∀ z ∈ List.replicate 128 15, z ≤ 15 := by
    intro z hz; rw [List.eq_of_mem_replicate hz]
  have hrun := small_run_fresh L hL (List.replicate 128 15) (by simp) hsz
  simp only [List.length_replicate, Nat.sub_self, nextOf_zero] at hrun
  constructor
  · rw [mallocs_fresh_fst L hL, hrun]
  · rw [mallocs_fresh_snd L hL _ (by simp), hrun]

theorem free_small_eq (L : Layout) (s : State) (p : Nat) (hp : p ≠ 0) (hin : inSmall L p) :
    free L p s = { s with mem := storePtr s.mem p s.free_small, free_small := p } := by
  unfold free
  unfold inSmall at hin
  simp only [hp, if_false, hin, and_self, if_true]

theorem free_large_eq (L : Layout) (hL : L.wf) (s : State) (p : Nat) (hin : inLarge L p) :
    free L p s = { s with mem := storePtr s.mem p s.free_large, free_large := p } := by
  obtain ⟨hs0, hl0, hs64, hl64, hdisj⟩ := hL
  unfold inLarge at hin
  have hp : p ≠ 0 := by omega
  have hns : ¬ (L.small_pool ≤ p ∧ p < L.small_pool + SMALL_BLOCK_SIZE * SMALL_POOL_SIZE) := by
    omega
  unfold free
  simp only [hp, if_false, hns, hin, and_self, if_true]

/-! ## Links stay inside their arena -/

theorem isSmallBlock_bounds (L : Layout) (hL : L.wf) (p : Nat) (h : isSmallBlock L p) :
    p ≠ 0 ∧ p < 2 ^ 64 ∧ L.small_pool ≤ p ∧ p + 15 ≤ L.small_pool + 1920 := by
  obtain ⟨hs0, hl0, hs64, hl64, hdisj⟩ := hL
  obtain ⟨j, hj, rfl⟩ := h
  simp only [SMALL_POOL_SIZE, SMALL_BLOCK_SIZE] at hj hs64 ⊢
  omega

theorem isLargeBlock_bounds (L : Layout) (hL : L.wf) (p : Nat) (h : isLargeBlock L p) :
    p ≠ 0 ∧ p < 2 ^ 64 ∧ L.large_pool ≤ p ∧ p + 180 ≤ L.large_pool + 5760 := by
  obtain ⟨hs0, hl0, hs64, hl64, hdisj⟩ := hL
  obtain ⟨j, hj, rfl⟩ := h
  simp only [LARGE_POOL_SIZE, LARGE_BLOCK_SIZE] at hj hl64 ⊢
  omega

theorem isSmallBlock_inSmall (L : Layout) (hL : L.wf) (p : Nat) (h : isSmallBlock L p) :
    inSmall L p := by
  have hb := isSmallBlock_bounds L hL p h
  unfold inSmall
  simp only [SMALL_POOL_SIZE, SMALL_BLOCK_SIZE]
  omega

theorem isLargeBlock_inLarge (L : Layout) (hL : L.wf) (p : Nat) (h : isLargeBlock L p) :
    inLarge L p := by
  have hb := isLargeBlock_bounds L hL p h
  unfold inLarge
  simp only [LARGE_POOL_SIZE, LARGE_BLOCK_SIZE]
  omega

theorem small_blocks_apart (L : Layout) (a b : Nat) (ha : isSmallBlock L a)
    (hb : isSmallBlock L b) (hne : a ≠ b) : a + 15 ≤ b ∨ b + 15 ≤ a := by
  obtain ⟨i, _, rfl⟩ := ha
  obtain ⟨j, _, rfl⟩ := hb
  simp only [SMALL_BLOCK_SIZE] at hne ⊢
  omega

theorem large_blocks_apart (L : Layout) (a b : Nat) (ha : isLargeBlock L a)
    (hb : isLargeBlock L b) (hne : a ≠ b) : a + 180 ≤ b ∨ b + 180 ≤ a := by
  obtain ⟨i, _, rfl⟩ := ha
  obtain ⟨j, _, rfl⟩ := hb
  simp only [LARGE_BLOCK_SIZE] at hne ⊢
  omega

theorem small_large_apart (L : Layout) (hL : L.wf) (a b : Nat) (ha : isSmallBlock L a)
    (hb : isLargeBlock L b) : a + 15 ≤ b ∨ b + 180 ≤ a := by
  have h1 := isSmallBlock_bounds L hL a ha
  have h2 := isLargeBlock_bounds L hL b hb
  obtain ⟨hs0, hl0, hs64, hl64, hdisj⟩ := hL
  simp only [SMALL_POOL_SIZE, SMALL_BLOCK_SIZE, LARGE_POOL_SIZE, LARGE_BLOCK_SIZE] at hdisj
  omega

theorem free_small_block_eq (L : Layout) (hL : L.wf) (s : State) (p : Nat)
    (hp : isSmallBlock L p) :
    free L p s = { s with mem := storePtr s.mem p s.free_small, free_small := p } :=
  free_small_eq L s p (isSmallBlock_bounds L hL p hp).1 (isSmallBlock_inSmall L hL p hp)

theorem free_large_block_eq (L : Layout) (hL : L.wf) (s : State) (p : Nat)
    (hp : isLargeBlock L p) :
    free L p s = { s with mem := storePtr s.mem p s.free_large, free_large := p } :=
  free_large_eq L hL s p (isLargeBlock_inLarge L hL p hp)

theorem memset_outside (m : Mem) (p c n x : Nat) (h : x < p ∨ p + n ≤ x) :
    memset m p c n x = m x := by
  unfold memset
  have hn : ¬ (p ≤ x ∧ x < p + n) := by omega
  rw [if_neg hn]

theorem test_small_loop_init (L : Layout) (hL : L.wf) (i : Nat) (is : List Nat) (s : State) :
    test_small_loop L (i :: is) (init_pools L s) = test_small_loop L (i :: is) s := by
  simp only [test_small_loop]
  rw [malloc_init_pools L hL]

theorem test_large_loop_init (L : Layout) (hL : L.wf) (i : Nat) (is : List Nat) (s : State) :
    test_large_loop L (i :: is) (init_pools L s) = test_large_loop L (i :: is) s := by
  simp only [test_large_loop]
  rw [malloc_init_pools L hL]

theorem test_small_loop_run (L : Layout) (hL : L.wf) (k : Nat) :
    ∀ (i : Nat) (s : State) (n : Nat), k ≤ n → n ≤ 128 →
      s.free_small = nextOf L.small_pool 15 n → Chain L.small_pool 15 s.mem n →
      s.free_large ≠ 0 →
      (test_small_loop L (List.range' i k) s).1 = true ∧
      (test_small_loop L (List.range' i k) s).2.1
        = (List.range k).map (fun j => L.small_pool + (n - 1 - j) * 15) ∧
      (test_small_loop L (List.range' i k) s).2.2.free_small
        = nextOf L.small_pool 15 (n - k) ∧
      (test_small_loop L (List.range' i k) s).2.2.free_large = s.free_large ∧
      (∀ x, ¬ inSmall L x → (test_small_loop L (List.range' i k) s).2.2.mem x = s.mem x) := by
  obtain ⟨hs0, _⟩ := id hL
  induction k with
  | zero =>
    intro i s n _ _ hh _ _
    simp only [List.range', test_small_loop, List.range_zero, List.map_nil, Nat.sub_zero]
    exact ⟨trivial, trivial, hh, trivial, fun _ _ => trivial⟩
  | succ k ih =>
    intro i s n hk hn hh hc hl
    obtain ⟨n, rfl⟩ : ∃ n', n = n' + 1 := ⟨n - 1, by omega⟩
    have hpop := malloc_small_pop L hL s n 15 (by omega) hh hc hl
    have hne : L.small_pool + n * 15 ≠ 0 := by omega
    simp only [List.range', test_small_loop, SMALL_BLOCK_SIZE, hpop, if_neg hne]
    have hc1 : Chain L.small_pool 15 (memset s.mem (L.small_pool + n * 15) i 15) n := by
      refine Chain_congr _ _ s.mem _ n (Chain_mono _ _ _ _ _ hc (by omega)) ?_
      intro j hj q hq
      exact memset_outside _ _ _ _ _ (by omega)
    obtain ⟨i1, i2, i3, i4, i5⟩ := ih (i + 1)
      { free_small := nextOf L.small_pool 15 n, free_large := s.free_large,
        mem := memset s.mem (L.small_pool + n * 15) i 15 } n (by omega) (by omega) rfl hc1 hl
    refine ⟨i1, ?_, ?_, i4, ?_⟩
    · rw [i2, List.range_succ_eq_map, List.map_cons, List.map_map]
      simp only [Nat.add_sub_cancel, Nat.sub_zero]
      congr 1
      apply List.map_congr_left
      intro j _
      simp only [Function.comp]
      congr 2
      omega
    · rw [i3]; congr 1; omega
    · intro x hx
      rw [i5 x hx]
      simp only
      apply memset_outside
      unfold inSmall at hx
      simp only [SMALL_BLOCK_SIZE, SMALL_POOL_SIZE] at hx
      omega

theorem test_large_loop_run (L : Layout) (hL : L.wf) (k : Nat) :
    ∀ (i : Nat) (s : State) (n : Nat), k ≤ n → n ≤ 32 →
      s.free_large = nextOf L.large_pool 180 n → Chain L.large_pool 180 s.mem n →
      s.free_small ≠ 0 →
      (test_large_loop L (List.range' i k) s).1 = true ∧
      (test_large_loop L (List.range' i k) s).2.1
        = (List.range k).map (fun j => L.large_pool + (n - 1 - j) * 180) ∧
      (test_large_loop L (List.range' i k) s).2.2.free_large
        = nextOf L.large_pool 180 (n - k) ∧
      (test_large_loop L (List.range' i k) s).2.2.free_small = s.free_small ∧
      (∀ x, ¬ inLarge L x → (test_large_loop L (List.range' i k) s).2.2.mem x = s.mem x) := by
  obtain ⟨_, hl0, _⟩ := id hL
  induction k with
  | zero =>
    intro i s n _ _ hh _ _
    simp only [List.range', test_large_loop, List.range_zero, List.map_nil, Nat.sub_zero]
    exact ⟨trivial, trivial, hh, trivial, fun _ _ => trivial⟩
  | succ k ih =>
    intro i s n hk hn hh hc hl
    obtain ⟨n, rfl⟩ : ∃ n', n = n' + 1 := ⟨n - 1, by omega⟩
    have hpop := malloc_large_pop L hL s n 180 (by omega) (by omega) hh hc hl
    have hne : L.large_pool + n * 180 ≠ 0 := by omega
    simp only [List.range', test_large_loop, LARGE_BLOCK_SIZE, hpop, if_neg hne]
    have hc1 : Chain L.large_pool 180
        (memset s.mem (L.large_pool + n * 180) (i + 100) 180) n := by
      refine Chain_congr _ _ s.mem _ n (Chain_mono _ _ _ _ _ hc (by omega)) ?_
      intro j hj q hq
      exact memset_outside _ _ _ _ _ (by omega)
    obtain ⟨i1, i2, i3, i4, i5⟩ := ih (i + 1)
      { free_small := s.free_small, free_large := nextOf L.large_pool 180 n,
        mem := memset s.mem (L.large_pool + n * 180) (i + 100) 180 } n
      (by omega) (by omega) rfl hc1 hl
    refine ⟨i1, ?_, ?_, i4, ?_⟩
    · rw [i2, List.range_succ_eq_map, List.map_cons, List.map_map]
      simp only [Nat.add_sub_cancel, Nat.sub_zero]
      congr 1
      apply List.map_congr_left
      intro j _
      simp only [Function.comp]
      congr 2
      omega
    · rw [i3]; congr 1; omega
    · intro x hx
      rw [i5 x hx]
      simp only
      apply memset_outside
      unfold inLarge at hx
      simp only [LARGE_BLOCK_SIZE, LARGE_POOL_SIZE] at hx
      omega

theorem test_small_loop_init_range (L : Layout) (hL : L.wf) (k i : Nat) (s : State)
    (hk : 0 < k) :
    test_small_loop L (List.range' i k) (init_pools L s)
      = test_small_loop L (List.range' i k) s := by
  obtain ⟨k, rfl⟩ : ∃ k', k = k' + 1 := ⟨k - 1, by omega⟩
  simp only [List.range']
  exact test_small_loop_init L hL _ _ s

theorem test_large_loop_init_range (L : Layout) (hL : L.wf) (k i : Nat) (s : State)
    (hk : 0 < k) :
    test_large_loop L (List.range' i k) (init_pools L s)
      = test_large_loop L (List.range' i k) s := by
  obtain ⟨k, rfl⟩ : ∃ k', k = k' + 1 := ⟨k - 1, by omega⟩
  simp only [List.range']
  exact test_large_loop_init L hL _ _ s

/-- The run of `test_small_blocks` on the fresh allocator: it passes, entry `j`
of `small_blocks` is block `127 - j`, and it leaves the small head `NULL`. -/
theorem test_small_blocks_fresh (L : Layout) (hL : L.wf) :
    (test_small_blocks L fresh).1 = true ∧
    (test_small_blocks L fresh).2.1
      = (List.range 128).map (fun j => L.small_pool + (128 - 1 - j) * 15) ∧
    (test_small_blocks L fresh).2.2.free_small = 0 ∧
    (test_small_blocks L fresh).2.2.free_large = nextOf L.large_pool 180 32 ∧
    Chain L.large_pool 180 (test_small_blocks L fresh).2.2.mem 32 := by
  obtain ⟨f1, f2, f3, f4⟩ := init_fresh L hL
  have hl : (init_pools L fresh).free_large ≠ 0 := (init_pools_heads_ne L hL fresh).2
  obtain ⟨t1, t2, t3, t4, t5⟩ :=
    test_small_loop_run L hL 128 0 (init_pools L fresh) 128 (by omega) (by omega) f1 f3 hl
  rw [test_small_loop_init_range L hL 128 0 fresh (by omega)] at t1 t2 t3 t4 t5
  unfold test_small_blocks
  simp only [SMALL_POOL_SIZE, List.range_eq_range']
  simp only [List.range_eq_range'] at t2
  refine ⟨t1, t2, ?_, ?_, ?_⟩
  · rw [t3]; simp [nextOf]
  · rw [t4, f2]
  · refine Chain_congr _ _ _ _ 32 f4 ?_
    intro j hj q hq
    apply t5
    obtain ⟨hs0, hl0, hs64, hl64, hdisj⟩ := hL
    unfold inSmall
    simp only [SMALL_POOL_SIZE, SMALL_BLOCK_SIZE, LARGE_POOL_SIZE, LARGE_BLOCK_SIZE] at hdisj ⊢
    omega

/-- The run of `test_large_blocks` after `test_small_blocks`: it passes, and
byte 0 of block 0 of the small arena holds 0 afterwards. -/
theorem test_large_blocks_after_small (L : Layout) (hL : L.wf) :
    (test_large_blocks L (test_small_blocks L fresh).2.2).1 = true ∧
    (test_large_blocks L (test_small_blocks L fresh).2.2).2.2.mem L.small_pool = 0 := by
  obtain ⟨_, _, s3, s4, s5⟩ := test_small_blocks_fresh L hL
  obtain ⟨h1, h2, _, _, h5, _, h7, _⟩ := init_pools_spec L hL (test_small_blocks L fresh).2.2
  obtain ⟨hs0, hl0, hs64, hl64, hdisj⟩ := id hL
  simp only [SMALL_POOL_SIZE, SMALL_BLOCK_SIZE, LARGE_POOL_SIZE, LARGE_BLOCK_SIZE] at hdisj
  have hl0' : (test_small_blocks L fresh).2.2.free_large ≠ 0 := by
    rw [s4, show (32 : Nat) = 31 + 1 from rfl, nextOf_succ]; omega
  have hfl : (init_pools L (test_small_blocks L fresh).2.2).free_large
      = nextOf L.large_pool 180 32 := by rw [h2, if_neg hl0', s4]
  have hch : Chain L.large_pool 180 (init_pools L (test_small_blocks L fresh).2.2).mem 32 := by
    refine Chain_congr _ _ _ _ 32 s5 ?_
    intro j hj q hq
    apply h7 hl0'
    unfold inLarge
    simp only [LARGE_POOL_SIZE, LARGE_BLOCK_SIZE]
    omega
  have hfs : (init_pools L (test_small_blocks L fresh).2.2).free_small ≠ 0 :=
    (init_pools_heads_ne L hL _).1
  obtain ⟨t1, _, _, _, t5⟩ := test_large_loop_run L hL 32 0
    (init_pools L (test_small_blocks L fresh).2.2) 32 (by omega) (by omega) hfl hch hfs
  rw [test_large_loop_init_range L hL 32 0 _ (by omega)] at t1 t5
  unfold test_large_blocks
  simp only [LARGE_POOL_SIZE, List.range_eq_range']
  refine ⟨t1, ?_⟩
  rw [t5 L.small_pool (by unfold inLarge; simp only [LARGE_POOL_SIZE, LARGE_BLOCK_SIZE]; omega)]
  have hb := h5 s3 0 (by omega) 0 (by omega)
  rw [nextOf_zero] at hb
  simp only [Nat.zero_mul, Nat.add_zero, Nat.zero_div, Nat.zero_mod] at hb
  exact hb

/-! ## Free lists as chains, and sequences of `free` -/

theorem IsList_frame (m m' : Mem) (l : List Nat) :
    ∀ h, IsList m h l → (∀ b ∈ l, ∀ k, k < 8 → m' (b + k) = m (b + k)) → IsList m' h l := by
  induction l with
  | nil => intro h hl _; exact hl
  | cons b t ih =>
    intro h hl hm
    obtain ⟨e, hb, ht⟩ := hl
    refine ⟨e, hb, ?_⟩
    rw [loadPtr_congr m m' b (hm b (List.mem_cons_self _ _))]
    exact ih _ ht (fun c hc => hm c (List.mem_cons_of_mem _ hc))

theorem IsList_head_lt (L : Layout) (hL : L.wf) (m : Mem) (h : Nat) (l : List Nat)
    (hl : IsList m h l) (hb : ∀ b ∈ l, isLargeBlock L b) : h < 2 ^ 64 := by
  cases l with
  | nil =>
    have : h = 0 := hl
    rw [this]; exact Nat.pos_pow_of_pos 64 (by decide)
  | cons b t =>
    obtain ⟨e, _, _⟩ := hl
    rw [e]
    exact (isLargeBlock_bounds L hL b (hb b (List.mem_cons_self _ _))).2.1

theorem malloc_small_id (L : Layout) (s : State) (size : Nat) (hsz : size ≤ 15)
    (hs : s.free_small ≠ 0) (hl : s.free_large ≠ 0) :
    malloc L size s
      = (s.free_small, { s with free_small := loadPtr s.mem s.free_small }) := by
  unfold malloc
  rw [init_pools_id L s hs hl]
  simp only [SMALL_BLOCK_SIZE, hsz, if_true]
  rw [if_neg hs]

theorem malloc_large_id (L : Layout) (s : State) (size : Nat) (h1 : 15 < size)
    (h2 : size ≤ 180) (hs : s.free_small ≠ 0) (hl : s.free_large ≠ 0) :
    malloc L size s
      = (s.free_large, { s with free_large := loadPtr s.mem s.free_large }) := by
  have hnot : ¬ size ≤ 15 := by omega
  unfold malloc
  rw [init_pools_id L s hs hl]
  simp only [SMALL_BLOCK_SIZE, LARGE_BLOCK_SIZE, hnot, h2, if_true, if_false]
  rw [if_neg hl]

theorem mallocs_init_pools (L : Layout) (hL : L.wf) (sizes : List Nat) (s : State)
    (h : sizes ≠ []) : mallocs L sizes (init_pools L s) = mallocs L sizes s := by
  cases sizes with
  | nil => exact absurd rfl h
  | cons z t => simp only [mallocs]; rw [malloc_init_pools L hL]

/-- Small requests on a state whose small links never reach `NULL`: every
request succeeds and only the small head changes. -/
theorem mallocs_small_closed (L : Layout) (hL : L.wf) (sizes : List Nat) :
    ∀ s : State, (∀ z ∈ sizes, z ≤ 15) → isSmallBlock L s.free_small →
      (∀ b, isSmallBlock L b → isSmallBlock L (loadPtr s.mem b)) → s.free_large ≠ 0 →
      (∀ h ∈ (mallocs L sizes s).1, h ≠ 0) ∧ (mallocs L sizes s).2.mem = s.mem ∧
      (mallocs L sizes s).2.free_large = s.free_large ∧
      isSmallBlock L (mallocs L sizes s).2.free_small := by
  induction sizes with
  | nil =>
    intro s _ hh _ _
    exact ⟨fun h hm => absurd hm (List.not_mem_nil h), rfl, rfl, hh⟩
  | cons z t ih =>
    intro s hsz hh hc hl
    have hne : s.free_small ≠ 0 := (isSmallBlock_bounds L hL _ hh).1
    simp only [mallocs]
    rw [malloc_small_id L s z (hsz z (List.mem_cons_self _ _)) hne hl]
    obtain ⟨i1, i2, i3, i4⟩ := ih { s with free_small := loadPtr s.mem s.free_small }
      (fun y hy => hsz y (List.mem_cons_of_mem _ hy)) (hc _ hh) hc hl
    refine ⟨?_, i2, i3, i4⟩
    intro h hm
    rcases List.mem_cons.mp hm with rfl | hm
    · exact hne
    · exact i1 h hm

/-- Large requests on a state whose large free list is a chain at least as long
as the number of requests: every request succeeds. -/
theorem mallocs_large_list (L : Layout) (sizes : List Nat) :
    ∀ (s : State) (l : List Nat), (∀ z ∈ sizes, 15 < z ∧ z ≤ 180) →
      IsList s.mem s.free_large l → sizes.length ≤ l.length → s.free_small ≠ 0 →
      ∀ h ∈ (mallocs L sizes s).1, h ≠ 0 := by
  induction sizes with
  | nil => intro s l _ _ _ _ h hm; exact absurd hm (List.not_mem_nil h)
  | cons z t ih =>
    intro s l hsz hlist hlen hs
    cases l with
    | nil => simp at hlen
    | cons b l' =>
      obtain ⟨e, hb, ht⟩ := hlist
      have hz := hsz z (List.mem_cons_self _ _)
      have hl : s.free_large ≠ 0 := by rw [e]; exact hb
      simp only [mallocs]
      rw [malloc_large_id L s z hz.1 hz.2 hs hl]
      intro h hm
      rcases List.mem_cons.mp hm with rfl | hm
      · exact hl
      · refine ih { s with free_large := loadPtr s.mem s.free_large } l'
          (fun y hy => hsz y (List.mem_cons_of_mem _ hy)) ?_ (by simp at hlen; omega) hs h hm
        simp only
        rw [e]
        exact ht

/-- After `free` of a list of block starts, the small head is a small block,
the `next` field of every small block in the list is a small block, and the
`next` field of every other small block is as before. -/
theorem frees_small_links (L : Layout) (hL : L.wf) (fs : List Nat) :
    ∀ s : State, (∀ p ∈ fs, isSmallBlock L p ∨ isLargeBlock L p) →
      isSmallBlock L s.free_small →
      isSmallBlock L (frees L fs s).free_small ∧
      ∀ b, isSmallBlock L b →
        (b ∈ fs → isSmallBlock L (loadPtr (frees L fs s).mem b)) ∧
        (b ∉ fs → loadPtr (frees L fs s).mem b = loadPtr s.mem b) := by
  induction fs with
  | nil =>
    intro s _ hh
    exact ⟨hh, fun b _ => ⟨fun hm => absurd hm (List.not_mem_nil b), fun _ => rfl⟩⟩
  | cons p rest ih =>
    intro s hfs hh
    have hrest : ∀ q ∈ rest, isSmallBlock L q ∨ isLargeBlock L q :=
      fun q hq => hfs q (List.mem_cons_of_mem _ hq)
    simp only [frees]
    rcases hfs p (List.mem_cons_self _ _) with hp | hp
    · rw [free_small_block_eq L hL s p hp]
      obtain ⟨i1, i2⟩ := ih { s with mem := storePtr s.mem p s.free_small, free_small := p }
        hrest hp
      refine ⟨i1, fun b hb => ⟨?_, ?_⟩⟩
      · intro hm
        by_cases hbr : b ∈ rest
        · exact (i2 b hb).1 hbr
        · have hbp : b = p := by
            rcases List.mem_cons.mp hm with h | h
            · exact h
            · exact absurd h hbr
          rw [(i2 b hb).2 hbr, hbp]
          simp only
          rw [loadPtr_storePtr_same _ _ _ (isSmallBlock_bounds L hL _ hh).2.1]
          exact hh
      · intro hm
        have hbr : b ∉ rest := fun h => hm (List.mem_cons_of_mem _ h)
        have hbp : b ≠ p := fun h => hm (h ▸ List.mem_cons_self _ _)
        rw [(i2 b hb).2 hbr]
        simp only
        have hd := small_blocks_apart L p b hp hb (fun e => hbp e.symm)
        exact loadPtr_storePtr_disj _ _ _ _ (by omega)
    · rw [free_large_block_eq L hL s p hp]
      obtain ⟨i1, i2⟩ := ih { s with mem := storePtr s.mem p s.free_large, free_large := p }
        hrest hh
      have hframe : ∀ b, isSmallBlock L b →
          loadPtr (storePtr s.mem p s.free_large) b = loadPtr s.mem b := by
        intro b hb
        have hd := small_large_apart L hL b p hb hp
        exact loadPtr_storePtr_disj _ _ _ _ (by omega)
      refine ⟨i1, fun b hb => ⟨?_, ?_⟩⟩
      · intro hm
        have hbp : b ≠ p := by
          intro e
          have hd := small_large_apart L hL b p hb hp
          omega
        rcases List.mem_cons.mp hm with h | h
        · exact absurd h hbp
        · exact (i2 b hb).1 h
      · intro hm
        have hbr : b ∉ rest := fun h => hm (List.mem_cons_of_mem _ h)
        rw [(i2 b hb).2 hbr]
        exact hframe b hb

/-- After `free` of a duplicate-free list of block starts none of which is in
the large free list, that list has grown by the large blocks freed, the last
one freed first. -/
theorem frees_large_list (L : Layout) (hL : L.wf) (fs : List Nat) :
    ∀ (s : State) (l : List Nat), (∀ p ∈ fs, isSmallBlock L p ∨ isLargeBlock L p) →
      fs.Nodup → IsList s.mem s.free_large l → (∀ b ∈ l, isLargeBlock L b) →
      (∀ p ∈ fs, p ∉ l) →
      IsList (frees L fs s).mem (frees L fs s).free_large
        ((fs.filter (fun p => decide (inLarge L p))).reverse ++ l) := by
  induction fs with
  | nil => intro s l _ _ hl _ _; exact hl
  | cons p rest ih =>
    intro s l hfs hnd hl hlb hnot
    have hrest : ∀ q ∈ rest, isSmallBlock L q ∨ isLargeBlock L q :=
      fun q hq => hfs q (List.mem_cons_of_mem _ hq)
    obtain ⟨hprest, hndrest⟩ := List.nodup_cons.mp hnd
    simp only [frees]
    rcases hfs p (List.mem_cons_self _ _) with hp | hp
    · have hnl : ¬ inLarge L p := by
        have hb := isSmallBlock_bounds L hL p hp
        obtain ⟨hs0, hl0, hs64, hl64, hdisj⟩ := id hL
        unfold inLarge
        simp only [SMALL_POOL_SIZE, SMALL_BLOCK_SIZE, LARGE_POOL_SIZE, LARGE_BLOCK_SIZE]
          at hdisj ⊢
        omega
      rw [free_small_block_eq L hL s p hp, List.filter_cons_of_neg (by simpa using hnl)]
      refine ih _ l hrest hndrest ?_ hlb (fun q hq => hnot q (List.mem_cons_of_mem _ hq))
      refine IsList_frame s.mem _ l _ hl ?_
      intro b hb k hk
      have hd := small_large_apart L hL p b hp (hlb b hb)
      exact storePtr_outside _ _ _ _ (by omega)
    · have hil : inLarge L p := isLargeBlock_inLarge L hL p hp
      rw [free_large_block_eq L hL s p hp, List.filter_cons_of_pos (by simpa using hil),
        List.reverse_cons, List.append_assoc, List.singleton_append]
      have hpl : p ∉ l := hnot p (List.mem_cons_self _ _)
      refine ih _ (p :: l) hrest hndrest ?_ ?_ ?_
      · refine ⟨rfl, (isLargeBlock_bounds L hL p hp).1, ?_⟩
        simp only
        rw [loadPtr_storePtr_same _ _ _ (IsList_head_lt L hL _ _ l hl hlb)]
        refine IsList_frame s.mem _ l _ hl ?_
        intro b hb k hk
        have hbp : p ≠ b := fun e => hpl (e ▸ hb)
        have hd := large_blocks_apart L p b hp (hlb b hb) hbp
        exact storePtr_outside _ _ _ _ (by omega)
      · intro b hb
        rcases List.mem_cons.mp hb with rfl | hb
        · exact hp
        · exact hlb b hb
      · intro q hq hql
        rcases List.mem_cons.mp hql with rfl | hql
        · exact hprest hq
        · exact hnot q (List.mem_cons_of_mem _ hq) hql

/-- The first round of the full cycle on the fresh allocator: the 160 handles,
and the heads afterwards (the small pool has been linked anew by the first
large request). -/
theorem first_round (L : Layout) (hL : L.wf) :
    (mallocs L (List.replicate 128 15 ++ List.replicate 32 180) fresh).1
      = (List.range 128).map (fun j => L.small_pool + (128 - 1 - j) * 15)
        ++ (List.range 32).map (fun j => L.large_pool + (32 - 1 - j) * 180) ∧
    (mallocs L (List.replicate 128 15 ++ List.replicate 32 180) fresh).2.free_small
      = L.small_pool + 1905 ∧
    (mallocs L (List.replicate 128 15 ++ List.replicate 32 180) fresh).2.free_large = 0 := by
  obtain ⟨e1, e2⟩ := state_after_small_exhaustion L hL
  obtain ⟨f1, f2, f3, f4⟩ := init_fresh L hL
  obtain ⟨h1, h2, _, _, _, _, h7, _⟩ :=
    init_pools_spec L hL { init_pools L fresh with free_small := 0 }
  have hl0 : (init_pools L fresh).free_large ≠ 0 := (init_pools_heads_ne L hL fresh).2
  have hfl : (init_pools L { init_pools L fresh with free_small := 0 }).free_large
      = nextOf L.large_pool 180 32 := by
    rw [h2]; simp only; rw [if_neg hl0, f2]
  have hch : Chain L.large_pool 180
      (init_pools L { init_pools L fresh with free_small := 0 }).mem 32 := by
    refine Chain_congr _ _ _ _ 32 f4 ?_
    intro j hj q hq
    refine h7 hl0 _ ?_
    unfold inLarge
    simp only [LARGE_POOL_SIZE, LARGE_BLOCK_SIZE]
    omega
  have hsz : ∀ z ∈ List.replicate 32 180, 15 < z ∧ z ≤ 180 := by
    intro z hz; rw [List.eq_of_mem_replicate hz]; omega
  have hrun := mallocs_large_run L hL (List.replicate 32 180) _ 32 (by simp) hsz hfl hch
    (init_pools_heads_ne L hL _).1
  rw [mallocs_init_pools L hL _ _ (by simp)] at hrun
  simp only [List.length_replicate, Nat.sub_self, nextOf_zero] at hrun
  rw [mallocs_append, e1, e2, hrun]
  refine ⟨rfl, ?_, rfl⟩
  simp only
  rw [h1]
  simp

theorem first_round_handles (L : Layout) (hL : L.wf) :
    (∀ p ∈ (mallocs L (List.replicate 128 15 ++ List.replicate 32 180) fresh).1,
      isSmallBlock L p ∨ isLargeBlock L p) ∧
    (mallocs L (List.replicate 128 15 ++ List.replicate 32 180) fresh).1.Nodup ∧
    (∀ b, isSmallBlock L b →
      b ∈ (mallocs L (List.replicate 128 15 ++ List.replicate 32 180) fresh).1) ∧
    ((mallocs L (List.replicate 128 15 ++ List.replicate 32 180) fresh).1.filter
      (fun p => decide (inLarge L p))).length = 32 := by
  obtain ⟨e, _, _⟩ := first_round L hL
  rw [e]
  have hS : ∀ p ∈ (List.range 128).map (fun j => L.small_pool + (128 - 1 - j) * 15),
      isSmallBlock L p := by
    intro p hp
    simp only [List.mem_map, List.mem_range] at hp
    obtain ⟨j, hj, rfl⟩ := hp
    exact ⟨128 - 1 - j, by simp only [SMALL_POOL_SIZE]; omega,
      by simp only [SMALL_BLOCK_SIZE]; omega⟩
  have hG : ∀ p ∈ (List.range 32).map (fun j => L.large_pool + (32 - 1 - j) * 180),
      isLargeBlock L p := by
    intro p hp
    simp only [List.mem_map, List.mem_range] at hp
    obtain ⟨j, hj, rfl⟩ := hp
    exact ⟨32 - 1 - j, by simp only [LARGE_POOL_SIZE]; omega,
      by simp only [LARGE_BLOCK_SIZE]; omega⟩
  refine ⟨?_, ?_, ?_, ?_⟩
  · intro p hp
    rcases List.mem_append.mp hp with h | h
    · exact Or.inl (hS p h)
    · exact Or.inr (hG p h)
  · rw [List.nodup_append]
    refine ⟨desc_nodup _ 15 128 128 (by omega) (by omega),
      desc_nodup _ 180 32 32 (by omega) (by omega), ?_⟩
    intro a ha hb
    have hd := small_large_apart L hL a a (hS a ha) (hG a hb)
    omega
  · intro b hb
    obtain ⟨j, hj, rfl⟩ := hb
    simp only [SMALL_POOL_SIZE, SMALL_BLOCK_SIZE] at hj ⊢
    apply List.mem_append_left
    simp only [List.mem_map, List.mem_range]
    exact ⟨128 - 1 - j, by omega, by omega⟩
  · rw [List.filter_append]
    have h1 : ((List.range 128).map (fun j => L.small_pool + (128 - 1 - j) * 15)).filter
        (fun p => decide (inLarge L p)) = [] := by
      rw [List.filter_eq_nil_iff]
      intro a ha
      have hb := isSmallBlock_bounds L hL a (hS a ha)
      obtain ⟨hs0, hl0, hs64, hl64, hdisj⟩ := id hL
      simp only [SMALL_POOL_SIZE, SMALL_BLOCK_SIZE, LARGE_POOL_SIZE, LARGE_BLOCK_SIZE] at hdisj
      simp only [decide_eq_true_eq]
      unfold inLarge
      simp only [LARGE_POOL_SIZE, LARGE_BLOCK_SIZE]
      omega
    have h2 : ((List.range 32).map (fun j => L.large_pool + (32 - 1 - j) * 180)).filter
        (fun p => decide (inLarge L p))
        = (List.range 32).map (fun j => L.large_pool + (32 - 1 - j) * 180) := by
      rw [List.filter_eq_self]
      intro a ha
      simp only [decide_eq_true_eq]
      exact isLargeBlock_inLarge L hL a (hG a ha)
    rw [h1, h2]
    simp

/-! ## The order of a freshly linked pool -/

theorem Chain_IsList (base bsize : Nat) (hb : 0 < base) (m : Mem) (n : Nat) :
    Chain base bsize m n →
      IsList m (nextOf base bsize n)
        ((List.range n).map (fun j => base + (n - 1 - j) * bsize)) := by
  induction n with
  | zero => intro _; exact nextOf_zero base bsize
  | succ n ih =>
    intro hc
    rw [nextOf_succ, List.range_succ_eq_map, List.map_cons, List.map_map]
    refine ⟨by simp, by omega, ?_⟩
    simp only [Nat.add_sub_cancel, Nat.sub_zero]
    rw [hc n (by omega)]
    have hl : (List.range n).map
        ((fun j => base + (n - j) * bsize) ∘ Nat.succ)
        = (List.range n).map (fun j => base + (n - 1 - j) * bsize) := by
      apply List.map_congr_left
      intro j _
      simp only [Function.comp]
      congr 2
      omega
    rw [hl]
    exact ih (Chain_mono _ _ _ _ _ hc (by omega))

theorem desc_small_eq (L : Layout) (n : Nat) :
    (List.range n).map (fun j => L.small_pool + (128 - 1 - j) * 15)
      = (List.range n).map (fun j => L.small_pool + 15 * (127 - j)) := by
  apply List.map_congr_left
  intro j _
  omega

theorem desc_large_eq (L : Layout) (n : Nat) :
    (List.range n).map (fun j => L.large_pool + (32 - 1 - j) * 180)
      = (List.range n).map (fun j => L.large_pool + 180 * (31 - j)) := by
  apply List.map_congr_left
  intro j _
  omega

theorem desc_pairwise (base bsize n N : Nat) (hb : 0 < bsize) (hn : n ≤ N + 1) :
    ((List.range n).map (fun j => base + bsize * (N - j))).Pairwise (fun a b => b < a) := by
  rw [List.pairwise_map]
  refine List.Pairwise.imp_of_mem ?_ (List.pairwise_lt_range n)
  intro a b ha hb' hab
  rw [List.mem_range] at ha hb'
  have h1 : N - b < N - a := by omega
  have h2 := Nat.mul_lt_mul_of_pos_left h1 hb
  omega

/-! ## Bytes of a loaded pointer -/

theorem loadPtr_congr_mod (m m' : Mem) (a : Nat)
    (h : ∀ k, k < 8 → m' (a + k) % 256 = m (a + k) % 256) : loadPtr m' a = loadPtr m a := by
  unfold loadPtr
  have h0 := h 0 (by omega)
  simp only [Nat.add_zero] at h0
  rw [h0, h 1 (by omega), h 2 (by omega), h 3 (by omega), h 4 (by omega),
    h 5 (by omega), h 6 (by omega), h 7 (by omega)]

theorem loadPtr_byte (m : Mem) (a k : Nat) (hk : k < 8) :
    (loadPtr m a / 256 ^ k) % 256 = m (a + k) % 256 := by
  unfold loadPtr
  interval_cases k <;> norm_num <;> omega

theorem loadPtr_lt (m : Mem) (a : Nat) : loadPtr m a < 2 ^ 64 := by
  unfold loadPtr
  norm_num
  omega

/-- Storing back the pointer just loaded from the same address leaves every
byte as it was. -/
theorem storePtr_loadPtr_mod (m : Mem) (a x : Nat) :
    storePtr m a (loadPtr m a) x % 256 = m x % 256 := by
  by_cases hx : a ≤ x ∧ x < a + 8
  · obtain ⟨k, rfl⟩ : ∃ k, x = a + k := ⟨x - a, by omega⟩
    rw [storePtr_inside m a _ k (by omega), Nat.mod_mod, loadPtr_byte m a k (by omega)]
  · rw [storePtr_outside m a _ x (by omega)]

/-! ## Well-formed states -/

/-- C1 (code as written): on a fresh allocator, once 128 small requests have
emptied the small list, the next small request does not return `NULL`: the
pool is linked anew and the request is given the block at `small_pool + 1905`.
Likewise the request after 32 large requests is given `large_pool + 5580`. -/
theorem malloc_after_exhaustion_not_null (L : Layout) (hL : L.wf)
    (ss : List Nat) (zs : Nat) (hss : ss.length = 128) (hs15 : ∀ z ∈ ss, z ≤ 15)
    (hzs : zs ≤ 15)
    (ls : List Nat) (zl : Nat) (hls : ls.length = 32)
    (hl180 : ∀ z ∈ ls, 15 < z ∧ z ≤ 180) (hzl : 15 < zl ∧ zl ≤ 180) :
    ((mallocs L ss fresh).1.length = 128 ∧ (∀ h ∈ (mallocs L ss fresh).1, h ≠ 0) ∧
      (malloc L zs (mallocs L ss fresh).2).1 = L.small_pool + 1905 ∧
      (malloc L zs (mallocs L ss fresh).2).1 ≠ 0) ∧
    ((mallocs L ls fresh).1.length = 32 ∧ (∀ h ∈ (mallocs L ls fresh).1, h ≠ 0) ∧
      (malloc L zl (mallocs L ls fresh).2).1 = L.large_pool + 5580 ∧
      (malloc L zl (mallocs L ls fresh).2).1 ≠ 0) := by
  have hss0 : ss ≠ [] := by intro h; rw [h] at hss; simp at hss
  have hls0 : ls ≠ [] := by intro h; rw [h] at hls; simp at hls
  have hw := hL
  obtain ⟨hs0, hl0, _⟩ := hw
  refine ⟨⟨?_, ?_, ?_, ?_⟩, ⟨?_, ?_, ?_, ?_⟩⟩
  · rw [mallocs_length, hss]
  · intro h hh
    rw [mallocs_fresh_fst L hL, small_run_fresh L hL ss (by omega) hs15] at hh
    simp only [List.mem_map] at hh
    obtain ⟨j, _, rfl⟩ := hh
    omega
  · rw [malloc_small_ret L zs _ hzs, mallocs_fresh_snd L hL ss hss0,
      small_run_fresh L hL ss (by omega) hs15, (init_pools_spec L hL _).1]
    simp [hss, nextOf]
  · rw [malloc_small_ret L zs _ hzs]
    exact (init_pools_heads_ne L hL _).1
  · rw [mallocs_length, hls]
  · intro h hh
    rw [mallocs_fresh_fst L hL, large_run_fresh L hL ls (by omega) hl180] at hh
    simp only [List.mem_map] at hh
    obtain ⟨j, _, rfl⟩ := hh
    omega
  · rw [malloc_large_ret L zl _ hzl.1 hzl.2, mallocs_fresh_snd L hL ls hls0,
      large_run_fresh L hL ls (by omega) hl180, (init_pools_spec L hL _).2.1]
    simp [hls, nextOf]
  · rw [malloc_large_ret L zl _ hzl.1 hzl.2]
    exact (init_pools_heads_ne L hL _).2

/-- Witness for C1: the statement at `demoLayout` with 128 requests of 15 bytes
and 32 requests of 180 bytes. -/
theorem malloc_after_exhaustion_not_null_witness :
    demoLayout.wf ∧
    (malloc demoLayout 15 (mallocs demoLayout (List.replicate 128 15) fresh).2).1 = 4096 + 1905 ∧
    (malloc demoLayout 180 (mallocs demoLayout (List.replicate 32 180) fresh).2).1
      = 8192 + 5580 := by
  have h := malloc_after_exhaustion_not_null demoLayout (by decide)
    (List.replicate 128 15) 15 (by simp) (by intro z hz; rw [List.eq_of_mem_replicate hz])
    (by decide)
    (List.replicate 32 180) 180 (by simp)
    (by intro z hz; rw [List.eq_of_mem_replicate hz]; decide) (by decide)
  exact ⟨by decide, h.1.2.2.1, h.2.2.2.1⟩

/-- C4: in every state, a request of more than 180 bytes returns `NULL`, and the
only state change is that of `init_pools` (no block is popped from any list). -/
theorem malloc_oversize_null (L : Layout) (s : State) (size : Nat)
    (h : LARGE_BLOCK_SIZE < size) :
    (malloc L size s).1 = 0 ∧ (malloc L size s).2 = init_pools L s := by
  simp only [LARGE_BLOCK_SIZE] at h
  have h1 : ¬ size ≤ 15 := by omega
  have h2 : ¬ size ≤ 180 := by omega
  unfold malloc
  simp only [SMALL_BLOCK_SIZE, LARGE_BLOCK_SIZE, h1, h2, if_false, and_self]

/-- Witness for C4: a request of 181 bytes on the fresh allocator. -/
theorem malloc_oversize_null_witness :
    LARGE_BLOCK_SIZE < 181 ∧ (malloc demoLayout 181 fresh).1 = 0 ∧
      (malloc demoLayout 181 fresh).2 = init_pools demoLayout fresh :=
  ⟨by decide, malloc_oversize_null demoLayout fresh 181 (by decide)⟩

/-- C5: on a fresh allocator the first `k ≤ 128` consecutive requests of at most
15 bytes return non-null, pairwise distinct block start addresses of the small
arena, and the first `k ≤ 32` consecutive requests of 16 to 180 bytes return
non-null, pairwise distinct block start addresses of the large arena. -/
theorem first_mallocs_distinct_blocks (L : Layout) (hL : L.wf)
    (ss : List Nat) (hss : ss.length ≤ 128) (hs15 : ∀ z ∈ ss, z ≤ 15)
    (ls : List Nat) (hls : ls.length ≤ 32) (hl180 : ∀ z ∈ ls, 15 < z ∧ z ≤ 180) :
    ((mallocs L ss fresh).1.length = ss.length ∧
      (∀ h ∈ (mallocs L ss fresh).1, h ≠ 0 ∧ isSmallBlock L h) ∧
      (mallocs L ss fresh).1.Nodup) ∧
    ((mallocs L ls fresh).1.length = ls.length ∧
      (∀ h ∈ (mallocs L ls fresh).1, h ≠ 0 ∧ isLargeBlock L h) ∧
      (mallocs L ls fresh).1.Nodup) := by
  have hw := hL
  obtain ⟨hs0, hl0, _⟩ := hw
  refine ⟨⟨mallocs_length L ss fresh, ?_, ?_⟩, ⟨mallocs_length L ls fresh, ?_, ?_⟩⟩
  · intro h hh
    rw [mallocs_fresh_fst L hL, small_run_fresh L hL ss hss hs15] at hh
    simp only [List.mem_map, List.mem_range] at hh
    obtain ⟨j, hj, rfl⟩ := hh
    refine ⟨by omega, 128 - 1 - j, by simp only [SMALL_POOL_SIZE]; omega, ?_⟩
    simp only [SMALL_BLOCK_SIZE]; omega
  · rw [mallocs_fresh_fst L hL, small_run_fresh L hL ss hss hs15]
    exact desc_nodup _ 15 128 _ (by omega) hss
  · intro h hh
    rw [mallocs_fresh_fst L hL, large_run_fresh L hL ls hls hl180] at hh
    simp only [List.mem_map, List.mem_range] at hh
    obtain ⟨j, hj, rfl⟩ := hh
    refine ⟨by omega, 32 - 1 - j, by simp only [LARGE_POOL_SIZE]; omega, ?_⟩
    simp only [LARGE_BLOCK_SIZE]; omega
  · rw [mallocs_fresh_fst L hL, large_run_fresh L hL ls hls hl180]
    exact desc_nodup _ 180 32 _ (by omega) hls

/-- Witness for C5: three small requests (15, 0 and 7 bytes) and two large
requests (180 and 16 bytes) at `demoLayout`. -/
theorem first_mallocs_distinct_blocks_witness :
    demoLayout.wf ∧
    ((mallocs demoLayout [15, 0, 7] fresh).1.length = 3 ∧
      (∀ h ∈ (mallocs demoLayout [15, 0, 7] fresh).1, h ≠ 0 ∧ isSmallBlock demoLayout h) ∧
      (mallocs demoLayout [15, 0, 7] fresh).1.Nodup) ∧
    ((mallocs demoLayout [180, 16] fresh).1.length = 2 ∧
      (∀ h ∈ (mallocs demoLayout [180, 16] fresh).1, h ≠ 0 ∧ isLargeBlock demoLayout h) ∧
      (mallocs demoLayout [180, 16] fresh).1.Nodup) :=
  ⟨by decide,
    first_mallocs_distinct_blocks demoLayout (by decide) [15, 0, 7] (by decide) (by decide)
      [180, 16] (by decide) (by decide)⟩

/-- C7: in every state, `free(h)` of a non-null `h` inside the small arena
followed by a request of at most 15 bytes returns `h`; `free(h)` of an `h`
inside the large arena followed by a request of 16 to 180 bytes returns `h`. -/
theorem free_then_malloc_lifo (L : Layout) (hL : L.wf) (s : State) (h size : Nat)
    (hh : h ≠ 0)
    (hcase : (inSmall L h ∧ size ≤ 15) ∨ (inLarge L h ∧ 15 < size ∧ size ≤ 180)) :
    (malloc L size (free L h s)).1 = h := by
  have hw := hL
  obtain ⟨hs0, hl0, hs64, hl64, hdisj⟩ := hw
  simp only [SMALL_BLOCK_SIZE, SMALL_POOL_SIZE, LARGE_BLOCK_SIZE, LARGE_POOL_SIZE] at hdisj
  rcases hcase with ⟨hin, hsz⟩ | ⟨hin, hsz1, hsz2⟩
  · have hf : (free L h s).free_small = h := by
      unfold free
      unfold inSmall at hin
      simp only [hh, if_false, hin, and_self, if_true]
    rw [malloc_small_ret L size _ hsz, (init_pools_spec L hL _).1, hf, if_neg hh]
  · have hns : ¬ (L.small_pool ≤ h ∧ h < L.small_pool + SMALL_BLOCK_SIZE * SMALL_POOL_SIZE) := by
      unfold inLarge at hin
      simp only [SMALL_BLOCK_SIZE, SMALL_POOL_SIZE, LARGE_BLOCK_SIZE, LARGE_POOL_SIZE] at hin ⊢
      omega
    have hf : (free L h s).free_large = h := by
      unfold free
      unfold inLarge at hin
      simp only [hh, if_false, hns, hin, and_self, if_true]
    rw [malloc_large_ret L size _ hsz1 hsz2, (init_pools_spec L hL _).2.1, hf, if_neg hh]

/-- Witness for C7: the address `small_pool + 30` on the fresh allocator. -/
theorem free_then_malloc_lifo_witness :
    demoLayout.wf ∧ 4126 ≠ 0 ∧ inSmall demoLayout 4126 ∧
      (malloc demoLayout 15 (free demoLayout 4126 fresh)).1 = 4126 :=
  ⟨by decide, by decide, by unfold inSmall; decide,
    free_then_malloc_lifo demoLayout (by decide) fresh 4126 15 (by decide)
      (Or.inl ⟨by unfold inSmall; decide, by decide⟩)⟩

/-- C8: in every state, `free(NULL)` and `free(p)` for `p` outside both arena
ranges return the state unchanged (both heads and all of memory), so every
later sequence of calls runs exactly as it would without that call. -/
theorem free_null_or_foreign_noop (L : Layout) (s : State) (p : Nat)
    (hp : p = 0 ∨ (¬ inSmall L p ∧ ¬ inLarge L p)) :
    free L p s = s ∧
    ∀ (ops : List Op) (live : List Nat),
      runOps L ops (free L p s, live) = runOps L ops (s, live) := by
  have hfree : free L p s = s := by
    unfold free
    rcases hp with h0 | ⟨h1, h2⟩
    · simp [h0]
    · unfold inSmall at h1
      unfold inLarge at h2
      simp only [h1, h2, if_false, ite_self]
  exact ⟨hfree, fun ops live => by rw [hfree]⟩

/-- Witness for C8: `free` of the address 64, below both arenas of `demoLayout`,
in the state after one request of 15 bytes. -/
theorem free_null_or_foreign_noop_witness :
    (¬ inSmall demoLayout 64 ∧ ¬ inLarge demoLayout 64) ∧
    free demoLayout 64 (malloc demoLayout 15 fresh).2 = (malloc demoLayout 15 fresh).2 :=
  ⟨by decide,
    (free_null_or_foreign_noop demoLayout (malloc demoLayout 15 fresh).2 64
      (Or.inr (by decide))).1⟩

/-- C3 (code as written): after 128 small requests on a fresh allocator (a run
within the contract, all 128 handles live), the next small request returns a
non-null handle that is live at the moment of the call, and leaves as head of
the small free list a block that is live as well. -/
theorem malloc_returns_live_handle (L : Layout) (hL : L.wf) :
    ∃ s live, runOps L ((List.replicate 128 15).map Op.malloc) (fresh, []) = some (s, live) ∧
      (malloc L 15 s).1 ≠ 0 ∧ (malloc L 15 s).1 ∈ live ∧
      (malloc L 15 s).2.free_small ≠ 0 ∧ (malloc L 15 s).2.free_small ∈ live := by
  obtain ⟨hs0, _⟩ := id hL
  obtain ⟨e1, e2⟩ := state_after_small_exhaustion L hL
  refine ⟨_, _, runOps_mallocs L _ fresh [], ?_⟩
  rw [e2, malloc_small_relink L hL _ 15 (by omega) rfl, e1]
  simp only [List.append_nil, List.mem_reverse, List.mem_filter, List.mem_map, List.mem_range,
    decide_eq_true_eq]
  refine ⟨by omega, ⟨⟨0, by omega, by omega⟩, by omega⟩, by omega, ⟨⟨1, by omega, by omega⟩, by omega⟩⟩

/-- Witness for C3: the statement at `demoLayout`. -/
theorem malloc_returns_live_handle_witness :
    demoLayout.wf ∧
    ∃ s live, runOps demoLayout ((List.replicate 128 15).map Op.malloc) (fresh, [])
        = some (s, live) ∧
      (malloc demoLayout 15 s).1 ≠ 0 ∧ (malloc demoLayout 15 s).1 ∈ live ∧
      (malloc demoLayout 15 s).2.free_small ≠ 0 ∧
      (malloc demoLayout 15 s).2.free_small ∈ live :=
  ⟨by decide, malloc_returns_live_handle demoLayout (by decide)⟩

/-- C10 (code as written): the run of 128 small requests, one large request and
`free` of the first handle returned (`small_pool + 1905`, live at that point) is
within the contract and ends in a state whose small free list is a cycle: the
head is its own `next`, so following the links never reaches `NULL`. -/
theorem free_list_cycle_after_relink (L : Layout) (hL : L.wf) :
    ∃ s live,
      runOps L ((List.replicate 128 15).map Op.malloc
          ++ [Op.malloc 180, Op.free (L.small_pool + 1905)]) (fresh, []) = some (s, live) ∧
      s.free_small ≠ 0 ∧ loadPtr s.mem s.free_small = s.free_small ∧
      ∀ n, nthNext s.mem s.free_small n ≠ 0 := by
  obtain ⟨hs0, hl0, hs64, hl64, hdisj⟩ := id hL
  simp only [SMALL_BLOCK_SIZE, SMALL_POOL_SIZE] at hs64
  obtain ⟨e1, e2⟩ := state_after_small_exhaustion L hL
  have hp0 : L.small_pool + 1905 ≠ 0 := by omega
  have hin : inSmall L (L.small_pool + 1905) := by
    unfold inSmall; simp only [SMALL_BLOCK_SIZE, SMALL_POOL_SIZE]; omega
  have hfs : (malloc L 180 { init_pools L fresh with free_small := 0 }).2.free_small
      = L.small_pool + 1905 := by
    rw [malloc_large_free_small L 180 _ (by omega), (init_pools_spec L hL _).1]
    simp
  have hmem : L.small_pool + 1905 ∈
      (if (malloc L 180 { init_pools L fresh with free_small := 0 }).1 = 0 then
        ((List.range 128).map (fun j => L.small_pool + (128 - 1 - j) * 15)
          |>.filter (fun h => decide (h ≠ 0))).reverse ++ []
      else (malloc L 180 { init_pools L fresh with free_small := 0 }).1 ::
        (((List.range 128).map (fun j => L.small_pool + (128 - 1 - j) * 15)
          |>.filter (fun h => decide (h ≠ 0))).reverse ++ [])) := by
    have hbase : L.small_pool + 1905 ∈
        ((List.range 128).map (fun j => L.small_pool + (128 - 1 - j) * 15)
          |>.filter (fun h => decide (h ≠ 0))).reverse ++ [] := by
      simp only [List.append_nil, List.mem_reverse, List.mem_filter, List.mem_map,
        List.mem_range, decide_eq_true_eq]
      exact ⟨⟨0, by omega, by omega⟩, by omega⟩
    split
    · exact hbase
    · exact List.mem_cons_of_mem _ hbase
  have hrun : ∃ live, runOps L ((List.replicate 128 15).map Op.malloc
      ++ [Op.malloc 180, Op.free (L.small_pool + 1905)]) (fresh, [])
      = some (free L (L.small_pool + 1905)
          (malloc L 180 { init_pools L fresh with free_small := 0 }).2, live) := by
    rw [runOps_append, runOps_mallocs, e1, e2]
    simp only [Option.some_bind, runOps, step, if_neg hp0, if_pos hmem]
    exact ⟨_, rfl⟩
  obtain ⟨live, hrun⟩ := hrun
  refine ⟨_, live, hrun, ?_⟩
  · rw [free_small_eq L _ _ hp0 hin]
    simp only
    have hself : loadPtr (storePtr
        (malloc L 180 { init_pools L fresh with free_small := 0 }).2.mem
        (L.small_pool + 1905)
        (malloc L 180 { init_pools L fresh with free_small := 0 }).2.free_small)
        (L.small_pool + 1905) = L.small_pool + 1905 := by
      rw [hfs]
      exact loadPtr_storePtr_same _ _ _ (by omega)
    refine ⟨hp0, hself, fun n => ?_⟩
    rw [nthNext_self _ _ hself n]
    exact hp0

/-- Witness for C10: the statement at `demoLayout`. -/
theorem free_list_cycle_after_relink_witness :
    demoLayout.wf ∧
    ∃ s live,
      runOps demoLayout ((List.replicate 128 15).map Op.malloc
          ++ [Op.malloc 180, Op.free (4096 + 1905)]) (fresh, []) = some (s, live) ∧
      s.free_small ≠ 0 ∧ loadPtr s.mem s.free_small = s.free_small ∧
      ∀ n, nthNext s.mem s.free_small n ≠ 0 :=
  ⟨by decide, free_list_cycle_after_relink demoLayout (by decide)⟩

/-- C2 (code as written): on the fresh allocator `test_small_blocks` and
`test_large_blocks` both pass, entry 127 of `small_blocks` (filled with the byte
127 and never freed) is the block at `small_pool`, and after the large requests
its first byte holds 0: `test_data_integrity` returns `false`. -/
theorem test_data_integrity_fails (L : Layout) (hL : L.wf) :
    (test_small_blocks L fresh).1 = true ∧
    (test_large_blocks L (test_small_blocks L fresh).2.2).1 = true ∧
    (test_small_blocks L fresh).2.1.getD 127 0 = L.small_pool ∧
    (test_large_blocks L (test_small_blocks L fresh).2.2).2.2.mem L.small_pool = 0 ∧
    test_data_integrity (test_small_blocks L fresh).2.1
      (test_large_blocks L (test_small_blocks L fresh).2.2).2.1
      (test_large_blocks L (test_small_blocks L fresh).2.2).2.2.mem = false := by
  obtain ⟨s1, s2, _⟩ := test_small_blocks_fresh L hL
  obtain ⟨g1, g2⟩ := test_large_blocks_after_small L hL
  have hget : (test_small_blocks L fresh).2.1.getD 127 0 = L.small_pool := by
    rw [s2, List.getD_eq_getElem?_getD, List.getElem?_map,
      List.getElem?_range (by omega)]
    simp
  refine ⟨s1, g1, hget, g2, ?_⟩
  unfold test_data_integrity
  rw [Bool.and_eq_false_iff]
  left
  rw [List.all_eq_false]
  refine ⟨127, by simp, ?_⟩
  rw [Bool.not_eq_true, List.all_eq_false]
  refine ⟨0, by simp, ?_⟩
  rw [hget, Nat.add_zero, g2]
  decide

/-- Witness for C2: the test driver at `demoLayout`. -/
theorem test_data_integrity_fails_witness :
    demoLayout.wf ∧
    test_data_integrity (test_small_blocks demoLayout fresh).2.1
      (test_large_blocks demoLayout (test_small_blocks demoLayout fresh).2.2).2.1
      (test_large_blocks demoLayout (test_small_blocks demoLayout fresh).2.2).2.2.mem = false :=
  ⟨by decide, (test_data_integrity_fails demoLayout (by decide)).2.2.2.2⟩

/-- C6: on the fresh allocator 128 requests of 15 bytes followed by 32 requests
of 180 bytes all succeed; after `free` of the 160 returned handles, in any
order, a second round of 128 requests of 15 bytes and 32 requests of 180 bytes
again succeeds on every call. -/
theorem full_cycle_succeeds (L : Layout) (hL : L.wf) (fs : List Nat)
    (hperm : fs.Perm (mallocs L (List.replicate 128 15 ++ List.replicate 32 180) fresh).1) :
    (mallocs L (List.replicate 128 15 ++ List.replicate 32 180) fresh).1.length = 160 ∧
    (∀ h ∈ (mallocs L (List.replicate 128 15 ++ List.replicate 32 180) fresh).1, h ≠ 0) ∧
    (mallocs L (List.replicate 128 15 ++ List.replicate 32 180)
      (frees L fs (mallocs L (List.replicate 128 15 ++ List.replicate 32 180) fresh).2)).1.length
        = 160 ∧
    (∀ h ∈ (mallocs L (List.replicate 128 15 ++ List.replicate 32 180)
      (frees L fs (mallocs L (List.replicate 128 15 ++ List.replicate 32 180) fresh).2)).1,
        h ≠ 0) := by
  obtain ⟨hblk, hnd, hall, hcount⟩ := first_round_handles L hL
  obtain ⟨_, hfs1, hfl1⟩ := first_round L hL
  have hfsblk : ∀ p ∈ fs, isSmallBlock L p ∨ isLargeBlock L p :=
    fun p hp => hblk p (hperm.mem_iff.mp hp)
  have hfsnd : fs.Nodup := hperm.nodup_iff.mpr hnd
  have hhead : isSmallBlock L
      (mallocs L (List.replicate 128 15 ++ List.replicate 32 180) fresh).2.free_small := by
    rw [hfs1]; exact ⟨127, by simp, by simp⟩
  -- the state after the 160 calls of free
  obtain ⟨k1, k2⟩ := frees_small_links L hL fs _ hfsblk hhead
  have hlist := frees_large_list L hL fs _ [] hfsblk hfsnd
    (by rw [hfl1]; exact rfl) (fun b hb => absurd hb (List.not_mem_nil b))
    (fun p _ hp => absurd hp (List.not_mem_nil p))
  have hlen : ((fs.filter (fun p => decide (inLarge L p))).reverse ++ []).length = 32 := by
    rw [List.append_nil, List.length_reverse, (hperm.filter _).length_eq, hcount]
  generalize frees L fs
    (mallocs L (List.replicate 128 15 ++ List.replicate 32 180) fresh).2 = s3 at k1 k2 hlist
  generalize (fs.filter (fun p => decide (inLarge L p))).reverse ++ [] = l3 at hlist hlen
  have hclosed : ∀ b, isSmallBlock L b → isSmallBlock L (loadPtr s3.mem b) :=
    fun b hb => (k2 b hb).1 (hperm.mem_iff.mpr (hall b hb))
  have hl3 : s3.free_large ≠ 0 := by
    cases l3 with
    | nil => simp at hlen
    | cons b t => obtain ⟨e, hb, _⟩ := hlist; rw [e]; exact hb
  -- the second round
  have hsz15 : ∀ z ∈ List.replicate 128 15, z ≤ 15 := by
    intro z hz; rw [List.eq_of_mem_replicate hz]
  have hsz180 : ∀ z ∈ List.replicate 32 180, 15 < z ∧ z ≤ 180 := by
    intro z hz; rw [List.eq_of_mem_replicate hz]; omega
  obtain ⟨r1, r2, r3, r4⟩ :=
    mallocs_small_closed L hL (List.replicate 128 15) s3 hsz15 k1 hclosed hl3
  have hlarge := mallocs_large_list L (List.replicate 32 180)
    (mallocs L (List.replicate 128 15) s3).2 l3 hsz180 (by rw [r2, r3]; exact hlist)
    (by simp [hlen]) (isSmallBlock_bounds L hL _ r4).1
  refine ⟨by rw [mallocs_length]; simp, ?_, by rw [mallocs_length]; simp, ?_⟩
  · intro h hh
    rcases hblk h hh with hb | hb
    · exact (isSmallBlock_bounds L hL h hb).1
    · exact (isLargeBlock_bounds L hL h hb).1
  · intro h hh
    rw [mallocs_append] at hh
    rcases List.mem_append.mp hh with hm | hm
    · exact r1 h hm
    · exact hlarge h hm

/-- Witness for C6: the handles are freed in the order in which they were
returned, at `demoLayout`. -/
theorem full_cycle_succeeds_witness :
    demoLayout.wf ∧
    (∀ h ∈ (mallocs demoLayout (List.replicate 128 15 ++ List.replicate 32 180) fresh).1,
      h ≠ 0) ∧
    (∀ h ∈ (mallocs demoLayout (List.replicate 128 15 ++ List.replicate 32 180)
      (frees demoLayout
        (mallocs demoLayout (List.replicate 128 15 ++ List.replicate 32 180) fresh).1
        (mallocs demoLayout (List.replicate 128 15 ++ List.replicate 32 180) fresh).2)).1,
        h ≠ 0) :=
  have h := full_cycle_succeeds demoLayout (by decide)
    (mallocs demoLayout (List.replicate 128 15 ++ List.replicate 32 180) fresh).1
    (List.Perm.refl _)
  ⟨by decide, h.2.1, h.2.2.2⟩

/-- C12: after `init_pools` on the fresh allocator each free list is the chain
of all blocks of its arena in strictly descending address order, from the last
block (the head) down to the first block, whose `next` is `NULL`.  Hence the
`k`-th consecutive small request on the fresh allocator returns
`small_pool + 15 * (128 - k)` and the `k`-th consecutive large request returns
`large_pool + 180 * (32 - k)`. -/
theorem initial_order (L : Layout) (hL : L.wf)
    (ss : List Nat) (hss : ss.length ≤ 128) (hs15 : ∀ z ∈ ss, z ≤ 15)
    (ks : Nat) (hks : 1 ≤ ks ∧ ks ≤ ss.length)
    (ls : List Nat) (hls : ls.length ≤ 32) (hl180 : ∀ z ∈ ls, 15 < z ∧ z ≤ 180)
    (kl : Nat) (hkl : 1 ≤ kl ∧ kl ≤ ls.length) :
    ((init_pools L fresh).free_small = L.small_pool + 15 * 127 ∧
      IsList (init_pools L fresh).mem (init_pools L fresh).free_small
        ((List.range 128).map (fun j => L.small_pool + 15 * (127 - j))) ∧
      (∀ b, b ∈ (List.range 128).map (fun j => L.small_pool + 15 * (127 - j))
        ↔ isSmallBlock L b) ∧
      ((List.range 128).map (fun j => L.small_pool + 15 * (127 - j))).Pairwise
        (fun a b => b < a) ∧
      loadPtr (init_pools L fresh).mem L.small_pool = 0) ∧
    ((init_pools L fresh).free_large = L.large_pool + 180 * 31 ∧
      IsList (init_pools L fresh).mem (init_pools L fresh).free_large
        ((List.range 32).map (fun j => L.large_pool + 180 * (31 - j))) ∧
      (∀ b, b ∈ (List.range 32).map (fun j => L.large_pool + 180 * (31 - j))
        ↔ isLargeBlock L b) ∧
      ((List.range 32).map (fun j => L.large_pool + 180 * (31 - j))).Pairwise
        (fun a b => b < a) ∧
      loadPtr (init_pools L fresh).mem L.large_pool = 0) ∧
    (mallocs L ss fresh).1[ks - 1]? = some (L.small_pool + 15 * (128 - ks)) ∧
    (mallocs L ls fresh).1[kl - 1]? = some (L.large_pool + 180 * (32 - kl)) := by
  obtain ⟨hs0, hl0, _⟩ := id hL
  obtain ⟨f1, f2, f3, f4⟩ := init_fresh L hL
  refine ⟨⟨?_, ?_, ?_, ?_, ?_⟩, ⟨?_, ?_, ?_, ?_, ?_⟩, ?_, ?_⟩
  · rw [f1]; simp [nextOf]
  · rw [f1, ← desc_small_eq]
    exact Chain_IsList L.small_pool 15 hs0 _ 128 f3
  · intro b
    simp only [List.mem_map, List.mem_range]
    constructor
    · rintro ⟨j, hj, rfl⟩
      exact ⟨127 - j, by simp only [SMALL_POOL_SIZE]; omega, rfl⟩
    · rintro ⟨j, hj, rfl⟩
      simp only [SMALL_POOL_SIZE, SMALL_BLOCK_SIZE] at hj ⊢
      exact ⟨127 - j, by omega, by congr 2; omega⟩
  · exact desc_pairwise _ 15 128 127 (by omega) (by omega)
  · have h := f3 0 (by omega)
    rw [nextOf_zero, Nat.zero_mul, Nat.add_zero] at h
    exact h
  · rw [f2]; simp [nextOf]
  · rw [f2, ← desc_large_eq]
    exact Chain_IsList L.large_pool 180 hl0 _ 32 f4
  · intro b
    simp only [List.mem_map, List.mem_range]
    constructor
    · rintro ⟨j, hj, rfl⟩
      exact ⟨31 - j, by simp only [LARGE_POOL_SIZE]; omega, rfl⟩
    · rintro ⟨j, hj, rfl⟩
      simp only [LARGE_POOL_SIZE, LARGE_BLOCK_SIZE] at hj ⊢
      exact ⟨31 - j, by omega, by congr 2; omega⟩
  · exact desc_pairwise _ 180 32 31 (by omega) (by omega)
  · have h := f4 0 (by omega)
    rw [nextOf_zero, Nat.zero_mul, Nat.add_zero] at h
    exact h
  · rw [mallocs_fresh_fst L hL, small_run_fresh L hL ss hss hs15]
    simp only
    rw [List.getElem?_map, List.getElem?_range (by omega)]
    simp only [Option.map_some']
    congr 2
    omega
  · rw [mallocs_fresh_fst L hL, large_run_fresh L hL ls hls hl180]
    simp only
    rw [List.getElem?_map, List.getElem?_range (by omega)]
    simp only [Option.map_some']
    congr 2
    omega

/-- Witness for C12: the second of three small requests and the first of two
large requests at `demoLayout`. -/
theorem initial_order_witness :
    demoLayout.wf ∧
    (mallocs demoLayout [15, 0, 7] fresh).1[2 - 1]? = some (4096 + 15 * (128 - 2)) ∧
    (mallocs demoLayout [180, 16] fresh).1[1 - 1]? = some (8192 + 180 * (32 - 1)) :=
  have h := initial_order demoLayout (by decide) [15, 0, 7] (by decide) (by decide) 2
    (by decide) [180, 16] (by decide) (by decide) 1 (by decide)
  ⟨by decide, h.2.2.1, h.2.2.2⟩

/-- C13 (code as written): the state after 128 small requests on the fresh
allocator is reached after the first `malloc` has returned, yet `init_pools` is
not the identity on it: the small head is `NULL` there and `init_pools` makes
it `small_pool + 1905`, linking the small pool a second time. -/
theorem init_pools_relinks_after_exhaustion (L : Layout) (hL : L.wf) :
    ∃ s live, runOps L ((List.replicate 128 15).map Op.malloc) (fresh, []) = some (s, live) ∧
      s.free_small = 0 ∧ (init_pools L s).free_small = L.small_pool + 1905 ∧
      init_pools L s ≠ s := by
  obtain ⟨hs0, _⟩ := id hL
  obtain ⟨_, e2⟩ := state_after_small_exhaustion L hL
  refine ⟨_, _, runOps_mallocs L _ fresh [], ?_⟩
  rw [e2]
  have h1 := (init_pools_spec L hL { init_pools L fresh with free_small := 0 }).1
  simp only [if_true] at h1
  refine ⟨rfl, h1, ?_⟩
  intro h
  have h2 := congrArg State.free_small h
  rw [h1] at h2
  simp only at h2
  omega

/-- Witness for C13: the statement at `demoLayout`. -/
theorem init_pools_relinks_after_exhaustion_witness :
    demoLayout.wf ∧
    ∃ s live, runOps demoLayout ((List.replicate 128 15).map Op.malloc) (fresh, [])
        = some (s, live) ∧
      s.free_small = 0 ∧ (init_pools demoLayout s).free_small = 4096 + 1905 ∧
      init_pools demoLayout s ≠ s :=
  ⟨by decide, init_pools_relinks_after_exhaustion demoLayout (by decide)⟩

/-- C14: in every state, a request of at most 180 bytes returns a non-null
handle: `init_pools`, run at the start of `malloc`, leaves both heads non-null,
so neither `return NULL` of the two served classes is reached. -/
theorem malloc_never_null (L : Layout) (hL : L.wf) (s : State) (size : Nat)
    (hsz : size ≤ LARGE_BLOCK_SIZE) :
    (malloc L size s).1 ≠ 0 ∧
    (init_pools L s).free_small ≠ 0 ∧ (init_pools L s).free_large ≠ 0 := by
  simp only [LARGE_BLOCK_SIZE] at hsz
  obtain ⟨h1, h2⟩ := init_pools_heads_ne L hL s
  refine ⟨?_, h1, h2⟩
  by_cases h15 : size ≤ 15
  · rw [malloc_small_ret L size s h15]; exact h1
  · rw [malloc_large_ret L size s (by omega) hsz]; exact h2

/-- Witness for C14: a request of 180 bytes in the state left by 32 requests of
180 bytes on the fresh allocator. -/
theorem malloc_never_null_witness :
    demoLayout.wf ∧ 180 ≤ LARGE_BLOCK_SIZE ∧
    (malloc demoLayout 180 (mallocs demoLayout (List.replicate 32 180) fresh).2).1 ≠ 0 :=
  ⟨by decide, by decide,
    (malloc_never_null demoLayout (by decide)
      (mallocs demoLayout (List.replicate 32 180) fresh).2 180 (by decide)).1⟩

/-- C17: for every state, `init_pools` applied twice gives the same state as
`init_pools` applied once, and after `init_pools` both heads are non-null. -/
theorem init_pools_idempotent (L : Layout) (hL : L.wf) (s : State) :
    init_pools L (init_pools L s) = init_pools L s ∧
    (init_pools L s).free_small ≠ 0 ∧ (init_pools L s).free_large ≠ 0 := by
  obtain ⟨h1, h2⟩ := init_pools_heads_ne L hL s
  exact ⟨init_pools_id L _ h1 h2, h1, h2⟩

/-- Witness for C17: the fresh allocator at `demoLayout`. -/
theorem init_pools_idempotent_witness :
    demoLayout.wf ∧
    init_pools demoLayout (init_pools demoLayout fresh) = init_pools demoLayout fresh ∧
    (init_pools demoLayout fresh).free_small ≠ 0 ∧
    (init_pools demoLayout fresh).free_large ≠ 0 :=
  ⟨by decide, init_pools_idempotent demoLayout (by decide) fresh⟩

/-- C16 (as stated, refuted): in `strayHeadState` both heads are non-null; a
request of 15 bytes returns the small head 64, which lies in neither arena of
`demoLayout`, so `free(64)` does nothing and the small head stays 0 instead of
going back to 64. -/
theorem round_trip_fails_on_stray_head :
    strayHeadState.free_small ≠ 0 ∧ strayHeadState.free_large ≠ 0 ∧
    (malloc demoLayout 15 strayHeadState).1 = 64 ∧
    (free demoLayout (malloc demoLayout 15 strayHeadState).1
      (malloc demoLayout 15 strayHeadState).2).free_small = 0 ∧
    (free demoLayout (malloc demoLayout 15 strayHeadState).1
      (malloc demoLayout 15 strayHeadState).2).free_small ≠ strayHeadState.free_small :=
  ⟨by decide, by decide, by decide, by decide, by decide⟩

/-- C16 (amended): for every state in which both heads are non-null and the
head of the list that serves the request lies in the range of its own arena,
and every size of at most 180 bytes, `malloc(size)` followed by `free` of the
returned handle restores both heads, every byte of memory, and hence every
`next` link; when memory holds byte values the state is restored exactly. -/
theorem malloc_free_round_trip (L : Layout) (hL : L.wf) (s : State) (size : Nat)
    (hs : s.free_small ≠ 0) (hl : s.free_large ≠ 0) (hsz : size ≤ 180)
    (hin : (size ≤ 15 → inSmall L s.free_small) ∧ (15 < size → inLarge L s.free_large)) :
    (free L (malloc L size s).1 (malloc L size s).2).free_small = s.free_small ∧
    (free L (malloc L size s).1 (malloc L size s).2).free_large = s.free_large ∧
    (∀ x, (free L (malloc L size s).1 (malloc L size s).2).mem x % 256 = s.mem x % 256) ∧
    (∀ a, loadPtr (free L (malloc L size s).1 (malloc L size s).2).mem a = loadPtr s.mem a) ∧
    ((∀ x, s.mem x < 256) → free L (malloc L size s).1 (malloc L size s).2 = s) := by
  have key : ∃ s', free L (malloc L size s).1 (malloc L size s).2 = s' ∧
      s'.free_small = s.free_small ∧ s'.free_large = s.free_large ∧
      ∀ x, s'.mem x % 256 = s.mem x % 256 := by
    by_cases h15 : size ≤ 15
    · rw [malloc_small_id L s size h15 hs hl]
      simp only
      rw [free_small_eq L _ _ hs (hin.1 h15)]
      exact ⟨_, rfl, rfl, rfl, fun x => storePtr_loadPtr_mod s.mem s.free_small x⟩
    · rw [malloc_large_id L s size (by omega) hsz hs hl]
      simp only
      rw [free_large_eq L hL _ _ (hin.2 (by omega))]
      exact ⟨_, rfl, rfl, rfl, fun x => storePtr_loadPtr_mod s.mem s.free_large x⟩
  obtain ⟨s', e, k1, k2, k3⟩ := key
  rw [e]
  refine ⟨k1, k2, k3, fun a => loadPtr_congr_mod _ _ a (fun k _ => k3 (a + k)), ?_⟩
  intro hbytes
  have hmem : s'.mem = s.mem := by
    funext x
    have hx := k3 x
    have hlt : s'.mem x < 256 := by
      by_cases h15 : size ≤ 15
      · rw [malloc_small_id L s size h15 hs hl] at e
        simp only at e
        rw [free_small_eq L _ _ hs (hin.1 h15)] at e
        rw [← e]
        simp only [storePtr]
        split
        · exact Nat.mod_lt _ (by decide)
        · exact hbytes x
      · rw [malloc_large_id L s size (by omega) hsz hs hl] at e
        simp only at e
        rw [free_large_eq L hL _ _ (hin.2 (by omega))] at e
        rw [← e]
        simp only [storePtr]
        split
        · exact Nat.mod_lt _ (by decide)
        · exact hbytes x
    rw [Nat.mod_eq_of_lt hlt, Nat.mod_eq_of_lt (hbytes x)] at hx
    exact hx
  cases s' with
  | mk a b c =>
    cases s with
    | mk a0 b0 c0 =>
      simp only at k1 k2 hmem
      rw [k1, k2, hmem]

/-- Witness for C16 (amended): a request of 15 bytes in the state left by
`init_pools` on the fresh allocator at `demoLayout`. -/
theorem malloc_free_round_trip_witness :
    demoLayout.wf ∧
    (init_pools demoLayout fresh).free_small ≠ 0 ∧
    (init_pools demoLayout fresh).free_large ≠ 0 ∧
    inSmall demoLayout (init_pools demoLayout fresh).free_small ∧
    (free demoLayout (malloc demoLayout 15 (init_pools demoLayout fresh)).1
      (malloc demoLayout 15 (init_pools demoLayout fresh)).2).free_small
        = (init_pools demoLayout fresh).free_small :=
  have hne := init_pools_heads_ne demoLayout (by decide) fresh
  have hin : inSmall demoLayout (init_pools demoLayout fresh).free_small := by
    rw [(init_pools_spec demoLayout (by decide) fresh).1]
    decide
  ⟨by decide, hne.1, hne.2, hin,
    (malloc_free_round_trip demoLayout (by decide) (init_pools demoLayout fresh) 15
      hne.1 hne.2 (by decide) ⟨fun _ => hin, fun h => absurd h (by decide)⟩).1⟩

end Allocator
